import Mathlib

/-!
# task.c — lightweight processes (symmetric coroutines)

A verification development for `src/task.c`: the jump-buffer probe and the
generic rebase, the stack layout and the frame copy of `jl_new_task`, the `Task` /
`yieldto` builtins, `jl_raise`, and the life cycle of tasks.

Conventions of the embedding.

* Machine integers are `Int` (signed, `intptr_t`, `long`) or `Nat` (unsigned,
  `size_t`) and every arithmetic result is reduced explicitly to the word
  width: `Int.bmod _ (2^bits)` for signed words, `_ % 2^bits` for unsigned.
* A `jmp_buf` viewed as an array of words is a function from the word index.
* The heap of task objects is a list; a `jl_task_t*` is an index into it.
* What a `jmp_buf` filled by `setjmp` stands for, the place where execution
  continues after a `longjmp`, is a value of `Resume`.
* A result of `none` means that the C program has no defined continuation
  there: a failed `assert`, a null or dangling pointer that is dereferenced,
  a loop that does not end.
-/

namespace JlTask

/-! ## Definitions -/

/-! ### The probing code -/

/-- Reduction of a mathematical integer to a signed word of `bits` bits
(two's complement wrap-around), as `intptr_t`, `ptrint_t` and `long`
arithmetic does on the supported targets. -/
def wrap (bits : Nat) (x : Int) : Int := Int.bmod x (2 ^ bits)

/-- The fields of `struct _probe_data` that `_infer_jmpbuf_offsets` reads. The
three jump buffers are viewed as arrays of `intptr_t`, as the function does
with its casts. -/
structure _probe_data where
  low_bound : Int
  probe_local : Int
  high_bound : Int
  prior_local : Int
  probe_env : Nat → Int
  probe_sameAR : Nat → Int
  probe_samePC : Nat → Int

/-- The file-scope variables written by the probe: `_offsets` holds the first
`_offsets_len` entries of the C array (so `_offsets_len` is its length). -/
structure ProbeGlobals where
  _offsets : List Nat
  _stack_grows_up : Bool
  _frame_offset : Nat

/-- Static storage before `_probe_arch` runs: `_offsets_len = 0`,
`_frame_offset = 0`; the direction flag is set by `_infer_stack_direction`
before the offsets are inferred. -/
def ProbeGlobals.static (up : Bool) : ProbeGlobals :=
  { _offsets := [], _stack_grows_up := up, _frame_offset := 0 }

/-- The `for` loop of `_infer_jmpbuf_offsets`: `k` iterations are left, the
next index is `i`; the state is the offsets recorded so far and `min_frame`.
`none` is `exit(1)` after "could not initialize task support". -/
def infer_loop (bits : Nat) (pb : _probe_data) (up : Bool) (prior_diff : Int) :
    Nat → Nat → List Nat × Int → Option (List Nat × Int)
  | 0, _, st => some st
  | k + 1, i, (offs, min_frame) =>
    let pi := pb.probe_env i
    let samePCi := pb.probe_samePC i
    if pi ≠ samePCi then
      if pi ≠ pb.probe_sameAR i then
        none
      else if wrap bits (pi - samePCi) = prior_diff then
        let min_frame' :=
          if (up && decide (min_frame > pi)) || (!up && decide (min_frame < pi)) then pi
          else min_frame
        infer_loop bits pb up prior_diff k (i + 1) (offs ++ [i], min_frame')
      else
        infer_loop bits pb up prior_diff k (i + 1) (offs, min_frame)
    else
      infer_loop bits pb up prior_diff k (i + 1) (offs, min_frame)

/-- The C library's `labs` on a `long` of `bits` bits. -/
def labs (bits : Nat) (x : Int) : Int := wrap bits (if x < 0 then -x else x)

/-- The function `_infer_jmpbuf_offsets`. `sizeof_jmp_buf` and `sizeof_intptr` are in
bytes, `intptr_t` and `long` have `8 * sizeof_intptr` bits. The result is the
new value of the file-scope variables, `none` when the process exits. -/
def _infer_jmpbuf_offsets (sizeof_jmp_buf sizeof_intptr : Nat) (g : ProbeGlobals)
    (pb : _probe_data) : Option ProbeGlobals :=
  let bits := 8 * sizeof_intptr
  let prior_diff := wrap bits (pb.probe_local - pb.prior_local)
  let min_frame := pb.probe_local
  match infer_loop bits pb g._stack_grows_up prior_diff (sizeof_jmp_buf / sizeof_intptr) 0
      (g._offsets, min_frame) with
  | none => none
  | some (offs, _) =>
    some { g with
      _offsets := offs
      _frame_offset := (wrap bits (labs bits prior_diff * 2) % 2 ^ bits).toNat }

/-- The number of entries of the array `_offsets`:
`sizeof(jmp_buf) / sizeof(int)`. -/
def offsets_capacity (sizeof_jmp_buf sizeof_int : Nat) : Nat := sizeof_jmp_buf / sizeof_int

/-- The generic branch of `rebase_state` (the final `#else`, "use automated
guess"): `s[_offsets[i]] += diff` for `i` from `0` to `_offsets_len - 1`, on
words of `bits` bits. The branches for the four named platforms use fixed
indices and are not part of this development. -/
def rebase_state (bits : Nat) (_offsets : List Nat) (ctx : Nat → Int)
    (local_sp new_sp : Int) : Nat → Int :=
  let diff := wrap bits (new_sp - local_sp)
  _offsets.foldl (fun s off => Function.update s off (wrap bits (s off + diff))) ctx

/-- The word indices the probe is meant to record: those whose word differs
between `probe_env` and `probe_samePC` by exactly `prior_diff`. -/
def stack_words (bits : Nat) (pb : _probe_data) (n : Nat) : List Nat :=
  (List.range n).filter fun i =>
    decide (pb.probe_env i ≠ pb.probe_samePC i ∧
      wrap bits (pb.probe_env i - pb.probe_samePC i)
        = wrap bits (pb.probe_local - pb.prior_local))

/-- The example probe used below: four words, word 1 and word 3 moved with the
stack by 16 bytes, word 2 differs between the probes by something else. -/
def probe_example : _probe_data :=
  { low_bound := 1024, probe_local := 1016, high_bound := 1000, prior_local := 1000
    probe_env := fun i => if i = 1 then 116 else if i = 2 then 7 else if i = 3 then 48 else 0
    probe_sameAR := fun i => if i = 1 then 116 else if i = 2 then 7 else if i = 3 then 48 else 0
    probe_samePC := fun i => if i = 1 then 100 else if i = 2 then 5 else if i = 3 then 32 else 0 }

/-! ### Values, tasks and the runtime state -/

/-- A `jl_value_t*`: the values of the host language that the task layer
handles, and the C null pointer. -/
inductive jl_value_t where
  /-- The C null pointer. -/
  | NULL
  /-- The value `jl_null`. -/
  | jl_null
  | jl_true
  | jl_false
  /-- A boxed `int32` of value `n`, with `-2^31 <= n < 2^31`. -/
  | int32 (n : Int)
  /-- A function object. -/
  | function (id : Nat)
  /-- A task object, `(jl_value_t*)t` for the `jl_task_t*` `t`. -/
  | task (t : Nat)
  | tuple (elems : List jl_value_t)
  /-- The exception made by `jl_error` and `jl_errorf` from a message. -/
  | error (msg : String)
  /-- Any other value. -/
  | other (id : Nat)

/-- The function that called `switchto` when a context was saved. -/
inductive Caller where
  | jl_f_yieldto
  | jl_switchto
  /-- The call `jl_switchto(cont, t->result)` that ends the body in `init_task`. -/
  | init_task
  deriving DecidableEq

/-- The content of a `jmp_buf` of a task, `t->ctx`: the `setjmp` call that
filled it, which is where a `longjmp` to it continues. -/
inductive Resume where
  /-- Never filled. -/
  | unset
  /-- Filled by `setjmp(t->ctx)` in `init_task`. -/
  | init_task
  /-- Filled by `setjmp` in `ctx_switch`, called from `switchto`, called from `caller`. -/
  | switchto (caller : Caller)
  /-- Filled by `setjmp` in `ctx_switch`, called from `jl_raise`. -/
  | jl_raise
  deriving DecidableEq

/-- The fields of `t->state` that task.c reads or writes. `eh_ctx` is a
`jmp_buf*`: `none` is `NULL`, `some h` the address of a handler's buffer. -/
structure jl_savestate_t where
  err : Bool
  eh_task : Nat
  eh_ctx : Option Nat
  ostream_obj : jl_value_t
  current_output_stream : Nat
  prev : Option Nat

/-- The task object `jl_task_t`. -/
structure jl_task_t where
  ssize : Nat
  stack : Nat
  _stkbase : Nat
  ctx : Resume
  on_exit : Nat
  done : Bool
  start : jl_value_t
  result : jl_value_t
  state : jl_savestate_t

/-- The global variables of task.c and the task objects allocated so far. A
`jl_task_t*` is the index of the object in `tasks`. -/
structure Runtime where
  tasks : List jl_task_t
  jl_current_task : Nat
  jl_root_task : Nat
  task_arg_in_transit : jl_value_t
  n_args_in_transit : Nat
  jl_exception_in_transit : jl_value_t

/-- What the caller of an operation of task.c, or the task that control was
transferred to, sees next. -/
inductive Event where
  /-- The called function returns `v` to its caller; no transfer took place. -/
  | returns (v : jl_value_t)
  /-- Control is in the task that is now current, after the `ctx_switch` of its
  suspended `switchto`; that `switchto` returns `v` to `caller`. -/
  | resumes (caller : Caller) (v : jl_value_t)
  /-- First entry of the task that is now current: `jl_apply(t->start, args)`. -/
  | starts (start : jl_value_t) (args : List jl_value_t)
  /-- A `longjmp` landed on the handler buffer `h`. -/
  | handler (h : Nat)
  /-- Control is in the task that is now current, after the `ctx_switch` of
  `jl_raise`, which returns. -/
  | raise_returns

/-- The constants and variables task.c takes from the target, from the rest
of the runtime and from its own start-up. -/
structure Machine where
  /-- The value `sizeof(void*)`, also the size of `size_t` and `intptr_t`. -/
  sizeof_ptr : Nat
  /-- The variable `extern size_t jl_page_size`, the size of a memory page. -/
  jl_page_size : Nat
  /-- Whether `BOEHM_GC` is defined. -/
  BOEHM_GC : Bool
  /-- The file-scope variable `_frame_offset`, as the probe left it. -/
  _frame_offset : Nat

/-- Number of bits of `size_t`. -/
def Machine.bits (m : Machine) : Nat := 8 * m.sizeof_ptr

/-- The library calls of `jl_new_task`: `allocb n` is the address the byte
allocator returns for a request of `n` bytes, `mprotect addr len` the result of
`mprotect(addr, len, PROT_READ)`, `strerror` the text of `strerror(errno)`
after a failed `mprotect`. -/
structure Host where
  allocb : Nat → Nat
  mprotect : Nat → Nat → Int
  strerror : String

/-- Where a `longjmp` goes: `&t->ctx` of a task, or a handler's buffer. -/
inductive JmpTarget where
  | task_ctx (t : Nat)
  | handler_ctx (h : Nat)

/-! ### Symmetric transfer -/

/-- The code that runs when a `longjmp` lands on the saved context `r` of task
`t` (which is the current task by then).

* `init_task`: the body of `if (setjmp(t->ctx))`: the argument is read from
  the transit slot and `t->start` is applied, to no argument, to the argument,
  or to the `n_args_in_transit` elements of the tuple in transit.
* `switchto caller`: `ctx_switch` returns into `switchto`, which reads and
  clears the transit slot and returns the value to `caller`; when the caller is
  the end of a task body, `assert(0)` follows.
* `jl_raise`: `ctx_switch` returns into `jl_raise`, which returns. -/
def resume (s : Runtime) (t : Nat) : Resume → Option (Runtime × Event)
  | .unset => none
  | .init_task =>
    match s.tasks[t]? with
    | none => none
    | some tt =>
      let arg := s.task_arg_in_transit
      if s.n_args_in_transit = 0 then some (s, .starts tt.start [])
      else if s.n_args_in_transit = 1 then some (s, .starts tt.start [arg])
      else
        match arg with
        | .tuple elems =>
          if s.n_args_in_transit ≤ elems.length then
            some (s, .starts tt.start (elems.take s.n_args_in_transit))
          else none
        | _ => none
  | .switchto caller =>
    let val := s.task_arg_in_transit
    match caller with
    | .init_task => none
    | _ => some ({ s with task_arg_in_transit := .jl_null }, .resumes caller val)
  | .jl_raise => some (s, .raise_returns)

/-- The call `longjmp(*where, 1)`. -/
def longjmp (s : Runtime) : Option JmpTarget → Option (Runtime × Event)
  | none => none
  | some (.task_ctx t) =>
    match s.tasks[t]? with
    | none => none
    | some tt => resume s t tt.ctx
  | some (.handler_ctx h) => some (s, .handler h)

/-- The function `ctx_switch(t, where)`, called at `site`: `setjmp` fills the
current task's `ctx`, returns 0, `t` becomes the current task and `longjmp`
leaves for `*where`. -/
def ctx_switch (s : Runtime) (t : Nat) (where_ : Option JmpTarget) (site : Resume) :
    Option (Runtime × Event) :=
  match s.tasks[s.jl_current_task]? with
  | none => none
  | some cur =>
    let s1 := { s with tasks := s.tasks.set s.jl_current_task { cur with ctx := site } }
    let s2 := { s1 with jl_current_task := t }
    longjmp s2 where_

/-- The function `switchto(t)`, called from `caller`. The statements after
`ctx_switch` run when the context saved here is resumed, see `resume`. -/
def switchto (s : Runtime) (t : Nat) (caller : Caller) : Option (Runtime × Event) :=
  match s.tasks[t]? with
  | none => none
  | some tt =>
    if tt.done then
      some ({ s with task_arg_in_transit := .jl_null }, .returns tt.result)
    else
      ctx_switch s t (some (.task_ctx t)) (.switchto caller)

/-- The function `jl_switchto(t, arg)`, called from `caller`. -/
def jl_switchto (s : Runtime) (t : Nat) (arg : jl_value_t) (caller : Caller) :
    Option (Runtime × Event) :=
  switchto { s with task_arg_in_transit := arg, n_args_in_transit := 1 } t caller

/-- The function `finish_task(t, resultval)`; `none` is the failed `assert(!t->done)`. -/
def finish_task (s : Runtime) (t : Nat) (resultval : jl_value_t) : Option Runtime :=
  match s.tasks[t]? with
  | none => none
  | some tt =>
    if tt.done then none
    else some { s with tasks := s.tasks.set t { tt with done := true, result := resultval } }

/-! ### Raise -/

/-- The function `jl_raise(e)`. -/
def jl_raise (s : Runtime) (e : jl_value_t) : Option (Runtime × Event) :=
  match s.tasks[s.jl_current_task]? with
  | none => none
  | some cur =>
    let eh := cur.state.eh_task
    match s.tasks[eh]? with
    | none => none
    | some eht =>
      let s1 := { s with
        tasks := s.tasks.set eh { eht with state := { eht.state with err := true } }
        jl_exception_in_transit := e }
      if s1.jl_current_task = eh then
        longjmp s1 (eht.state.eh_ctx.map JmpTarget.handler_ctx)
      else
        let eh' := if eht.done || eht.state.eh_ctx.isNone then s1.jl_root_task else eh
        match finish_task s1 s1.jl_current_task e with
        | none => none
        | some s2 =>
          match s2.tasks[eh']? with
          | none => none
          | some eht' =>
            ctx_switch s2 eh' (eht'.state.eh_ctx.map JmpTarget.handler_ctx) .jl_raise

/-- Modelled from the spec: `jl_error(str)`, defined outside task.c, "raise
a host error with the ... message": it raises the error value made from the
message through `jl_raise`. The macros `JL_NARGS`, `JL_NARGSV` and
`JL_TYPECHK` raise their errors ("type mismatch") the same way. -/
def jl_error (s : Runtime) (str : String) : Option (Runtime × Event) :=
  jl_raise s (.error str)

/-! ### Task creation -/

/-- Modelled from the spec: the macro `LLT_ALIGN(x, sz)` of llt.h, "round
... up to a page", "align the base upward to a page boundary": the least
multiple of `sz` that is at least `x`, as a word of `bits` bits. -/
def LLT_ALIGN (bits x sz : Nat) : Nat := ((x + (sz - 1)) / sz * sz) % 2 ^ bits

/-- The loop `while (cont->done) cont = cont->on_exit` at the end of the
task body in `init_task`, started at `cont`, with at most `fuel` tests of its
condition: the task the loop ends on, `none` when the loop has not ended
within `fuel` tests or follows a dangling pointer. -/
def exit_loop (tasks : List jl_task_t) : Nat → Nat → Option Nat
  | 0, _ => none
  | fuel + 1, cont =>
    match tasks[cont]? with
    | none => none
    | some c => if c.done then exit_loop tasks fuel c.on_exit else some cont

/-- The end of the body of `if (setjmp(t->ctx))` in `init_task`, from
`finish_task(t, res)` on, run by the current task `t` when `jl_apply` has
returned `res`. The loop is given as many tests as there are task objects:
it needs more only on a chain of done tasks that comes back to a task it has
visited, where it does not end. The `assert(0)` after `jl_switchto` fails if
that call returns. -/
def init_task_exit (s : Runtime) (res : jl_value_t) : Option (Runtime × Event) :=
  let t := s.jl_current_task
  match finish_task s t res with
  | none => none
  | some s1 =>
    match s1.tasks[t]? with
    | none => none
    | some tt =>
      match exit_loop s1.tasks s1.tasks.length tt.on_exit with
      | none => none
      | some cont =>
        match jl_switchto s1 cont tt.result .init_task with
        | some (_, .returns _) => none
        | r => r

/-- The argument of `allocb` in `jl_new_task`, for the aligned size `ssize`. -/
def stack_alloc_size (m : Machine) (ssize : Nat) : Nat :=
  (ssize + m.jl_page_size + (m.jl_page_size - 1)) % 2 ^ m.bits

/-- Subtraction of unsigned words of `bits` bits. -/
def wsub (bits a b : Nat) : Nat := (a + (2 ^ bits - b % 2 ^ bits)) % 2 ^ bits

/-- The address `new_sp` in `init_task`: `t->stack + t->ssize - _frame_offset`,
as a word. -/
def new_sp (m : Machine) (t : jl_task_t) : Nat :=
  wsub m.bits ((t.stack + t.ssize) % 2 ^ m.bits) m._frame_offset

/-- Whether the `memcpy` of `init_task`, which writes the `_frame_offset` bytes
from `new_sp` on, writes into the page at `guard`, which `jl_new_task` has made
read-only just before (`mprotect` acts on whole pages, and on none when its
length `pagesz - 1` is 0). -/
def copy_hits_guard (m : Machine) (guard : Nat) (t : jl_task_t) : Prop :=
  1 < m.jl_page_size ∧ 0 < m._frame_offset ∧
    new_sp m t < guard + m.jl_page_size ∧ guard < new_sp m t + m._frame_offset

instance (m : Machine) (guard : Nat) (t : jl_task_t) : Decidable (copy_hits_guard m guard t) := by
  unfold copy_hits_guard
  exact inferInstance

/-- The call `init_task(t)` made by `jl_new_task`, as the new value of `*t`:
`setjmp(t->ctx)` returns 0, so the branch "this runs when the task is
created" is taken: `t->ctx` is the context filled by this `setjmp` (moved to the
new stack by `rebase_state`), and `_frame_offset` bytes of the creator's frame
are copied to `new_sp`. `none` is the fault of that copy when it writes into the
read-only page at `guard`. The content of the stacks is not part of the
state. -/
def init_task (m : Machine) (guard : Nat) (t : jl_task_t) : Option jl_task_t :=
  if copy_hits_guard m guard t then none else some { t with ctx := .init_task }

/-- The function `jl_new_task(start, ssize)`. The new object is appended to
the heap, so the returned pointer is the former length of `tasks`. When
`mprotect` fails `jl_errorf` raises before `t->stack` is set and before
`init_task`. The garbage collector's frames and the finalizer are not part of
the state. -/
def jl_new_task (m : Machine) (host : Host) (s : Runtime) (start : jl_value_t)
    (ssize : Nat) : Option (Runtime × Event) :=
  let pagesz := m.jl_page_size
  let t := s.tasks.length
  let ssize := LLT_ALIGN m.bits ssize pagesz
  match s.tasks[s.jl_current_task]? with
  | none => none
  | some cur =>
    let stk := host.allocb (stack_alloc_size m ssize)
    let obj : jl_task_t :=
      { ssize := ssize
        stack := 0
        _stkbase := stk
        ctx := .unset
        on_exit := s.jl_current_task
        done := false
        start := start
        result := .NULL
        state :=
          { err := false
            eh_task := cur.state.eh_task
            eh_ctx := none
            ostream_obj := cur.state.ostream_obj
            current_output_stream := cur.state.current_output_stream
            prev := none } }
    let stk := LLT_ALIGN m.bits stk pagesz
    if host.mprotect stk (pagesz - 1) = -1 then
      jl_error { s with tasks := s.tasks ++ [obj] } ("mprotect: " ++ host.strerror)
    else
      match init_task m stk { obj with stack := (stk + pagesz) % 2 ^ m.bits } with
      | none => none
      | some obj => some ({ s with tasks := s.tasks ++ [obj] }, .returns (.task t))

/-- The constant `JL_MIN_STACK`. -/
def JL_MIN_STACK (m : Machine) : Nat :=
  if m.BOEHM_GC then 4096 * (2 * m.sizeof_ptr + 1) else 4096 * m.sizeof_ptr

/-- The constant `JL_DEFAULT_STACK`. -/
def JL_DEFAULT_STACK (m : Machine) : Nat :=
  if m.BOEHM_GC then 12288 * m.sizeof_ptr else 2 * 12288 * m.sizeof_ptr

/-! ### The builtins -/

/-- The builtin `Task`, `jl_f_task`. The assignment
`ssize = jl_unbox_int32(args[1])` converts the `int32_t` to `size_t`. -/
def jl_f_task (m : Machine) (host : Host) (s : Runtime) (args : List jl_value_t) :
    Option (Runtime × Event) :=
  match args with
  | [] => jl_error s "Task: too few arguments"
  | [.function f] => jl_new_task m host s (.function f) (JL_DEFAULT_STACK m)
  | [.function f, .int32 n] =>
    let ssize := (n % 2 ^ m.bits).toNat
    if ssize < JL_MIN_STACK m then jl_error s "Task: stack size too small"
    else jl_new_task m host s (.function f) ssize
  | [.function _, _] => jl_error s "Task: expected int32"
  | [_] => jl_error s "Task: expected function"
  | [_, _] => jl_error s "Task: expected function"
  | _ :: _ :: _ :: _ => jl_error s "Task: too many arguments"

/-- Modelled from the spec: `jl_f_tuple(NULL, args, n)` for `n >= 2`, defined
outside task.c: "a tuple of the args". -/
def jl_f_tuple (args : List jl_value_t) : jl_value_t := .tuple args

/-- The builtin `yieldto`, `jl_f_yieldto`. -/
def jl_f_yieldto (s : Runtime) (args : List jl_value_t) : Option (Runtime × Event) :=
  match args with
  | [] => jl_error s "yieldto: too few arguments"
  | .task t :: rest =>
    let s1 := { s with n_args_in_transit := rest.length }
    let s2 :=
      match rest with
      | [a] => { s1 with task_arg_in_transit := a }
      | _ :: _ :: _ => { s1 with task_arg_in_transit := jl_f_tuple rest }
      | [] => { s1 with task_arg_in_transit := .jl_null }
    switchto s2 t .jl_f_yieldto
  | _ :: _ => jl_error s "yieldto: expected task"

/-- The builtin `current_task`, `jl_f_current_task`. -/
def jl_f_current_task (s : Runtime) (args : List jl_value_t) : Option (Runtime × Event) :=
  match args with
  | [] => some (s, .returns (.task s.jl_current_task))
  | _ :: _ => jl_error s "current_task: too many arguments"

/-- The builtin `task_done`, `jl_f_taskdone`. -/
def jl_f_taskdone (s : Runtime) (args : List jl_value_t) : Option (Runtime × Event) :=
  match args with
  | [] => jl_error s "task_done: too few arguments"
  | [.task t] =>
    match s.tasks[t]? with
    | none => none
    | some tt => some (s, .returns (if tt.done then .jl_true else .jl_false))
  | [_] => jl_error s "task_done: expected task"
  | _ :: _ :: _ => jl_error s "task_done: too many arguments"

/-- The state that `jl_init_tasks(stack, ssize)` leaves, once `_probe_arch`
has returned: the root task is the only task object, it is current, and the
file-scope `task_arg_in_transit` and `n_args_in_transit` still have their
static initial values. -/
def jl_init_tasks (stack ssize : Nat) : Runtime :=
  { tasks :=
      [{ ssize := ssize
         stack := stack
         _stkbase := 0
         ctx := .unset
         on_exit := 0
         done := false
         start := .function 0
         result := .NULL
         state :=
           { err := false
             eh_task := 0
             eh_ctx := none
             ostream_obj := .jl_null
             current_output_stream := 0
             prev := none } }]
    jl_current_task := 0
    jl_root_task := 0
    task_arg_in_transit := .NULL
    n_args_in_transit := 0
    jl_exception_in_transit := .jl_null }

/-- Modelled from the spec: installing an exception handler in the current
task (the handler macros are defined outside task.c): afterwards "A's handler
task is A, with a non-null handler context" `h`. -/
def enter_handler (s : Runtime) (h : Nat) : Option (Runtime × Event) :=
  match s.tasks[s.jl_current_task]? with
  | none => none
  | some cur =>
    some ({ s with
      tasks := s.tasks.set s.jl_current_task
        { cur with state := { cur.state with eh_task := s.jl_current_task, eh_ctx := some h } } },
      .returns .jl_null)

/-! ### The operations of the task layer as a transition system -/

/-- The operations a running task can perform on the task layer. -/
inductive Op where
  /-- The builtin `Task(args...)`. -/
  | Task (host : Host) (args : List jl_value_t)
  /-- The C function `jl_new_task(start, ssize)`. -/
  | new_task (host : Host) (start : jl_value_t) (ssize : Nat)
  /-- The builtin `yieldto(args...)`. -/
  | yieldto (args : List jl_value_t)
  /-- The C function `jl_switchto(t, arg)`. -/
  | switchto (t : Nat) (arg : jl_value_t)
  /-- The C function `jl_raise(e)`. -/
  | raise (e : jl_value_t)
  /-- The start function of the current task returns `res` to `init_task`. -/
  | body_returns (res : jl_value_t)
  /-- The builtin `current_task(args...)`. -/
  | current_task (args : List jl_value_t)
  /-- The builtin `task_done(args...)`. -/
  | task_done (args : List jl_value_t)
  /-- The current task installs a handler with buffer `h`. -/
  | enter_handler (h : Nat)

/-- One operation performed by the current task. The body of a task returns
only in a task that has one: the root task is made by `jl_init_tasks` without
`init_task`, every other task by `jl_new_task`. -/
def step (m : Machine) (s : Runtime) : Op → Option (Runtime × Event)
  | .Task host args => jl_f_task m host s args
  | .new_task host start ssize => jl_new_task m host s start ssize
  | .yieldto args => jl_f_yieldto s args
  | .switchto t arg => jl_switchto s t arg .jl_switchto
  | .raise e => jl_raise s e
  | .body_returns res =>
    if s.jl_current_task = s.jl_root_task then none else init_task_exit s res
  | .current_task args => jl_f_current_task s args
  | .task_done args => jl_f_taskdone s args
  | .enter_handler h => enter_handler s h

/-- The states reachable from `jl_init_tasks` by operations of the task layer. -/
inductive Reachable (m : Machine) : Runtime → Prop where
  | init (stack ssize : Nat) : Reachable m (jl_init_tasks stack ssize)
  | step {s s' : Runtime} {ev : Event} (op : Op) :
      Reachable m s → step m s op = some (s', ev) → Reachable m s'

/-- Following `on_exit` `k` times from task `t`; `none` on a dangling pointer. -/
def on_exit_iter (tasks : List jl_task_t) : Nat → Nat → Option Nat
  | 0, t => if t < tasks.length then some t else none
  | k + 1, t =>
    match tasks[t]? with
    | none => none
    | some tt => on_exit_iter tasks k tt.on_exit

/-- The saved contexts of tasks that have finished: taken by the `ctx_switch`
of `jl_raise`, or by the transfer that ends a task body. -/
def Resume.terminal (r : Resume) : Prop := r = .jl_raise ∨ r = .switchto .init_task

/-- The saved contexts taken by a `ctx_switch`, that is, those of tasks that
have run and have left. -/
def Resume.switched (r : Resume) : Prop := r = .jl_raise ∨ ∃ caller, r = .switchto caller

/-- The invariant of the task layer, on the task objects, the current task
and the root task: the root task is the first object and its own handler task;
`on_exit` and `eh_task` point to existing objects, `on_exit` to an older one
(to itself in the root); the current task and the root task are not done; a
task is done exactly when its saved context was taken while it finished; and
every task that is the `on_exit` of a task, the current one apart, has a
context saved by `ctx_switch`. -/
structure TaskInv (s : Runtime) : Prop where
  root_zero : s.jl_root_task = 0
  cur_lt : s.jl_current_task < s.tasks.length
  on_exit_lt : ∀ (i : Nat) (t : jl_task_t), s.tasks[i]? = some t →
    t.on_exit < i ∨ (i = 0 ∧ t.on_exit = 0)
  eh_lt : ∀ (i : Nat) (t : jl_task_t), s.tasks[i]? = some t →
    t.state.eh_task < s.tasks.length
  root_eh : ∀ t : jl_task_t, s.tasks[0]? = some t → t.state.eh_task = 0
  cur_not_done : ∀ t : jl_task_t, s.tasks[s.jl_current_task]? = some t → t.done = false
  root_not_done : ∀ t : jl_task_t, s.tasks[0]? = some t → t.done = false
  done_ctx : ∀ (i : Nat) (t : jl_task_t), s.tasks[i]? = some t → t.done = true →
    t.ctx = .jl_raise ∨ t.ctx = .switchto .init_task
  term_done : ∀ (i : Nat) (t : jl_task_t), s.tasks[i]? = some t → t.ctx.terminal →
    t.done = true
  exit_ctx : ∀ (j : Nat) (u p : jl_task_t), s.tasks[j]? = some u →
    s.tasks[u.on_exit]? = some p → u.on_exit = s.jl_current_task ∨ p.ctx.switched

/-- A sequence of operations, each performed by the task that is current when
its turn comes. -/
def run (m : Machine) : Runtime → List Op → Option Runtime
  | s, [] => some s
  | s, op :: ops =>
    match step m s op with
    | none => none
    | some (s', _) => run m s' ops

/-- The transit value `jl_f_yieldto` stores for the extra arguments `rest`. -/
def transit_value (rest : List jl_value_t) : jl_value_t :=
  match rest with
  | [] => .jl_null
  | [a] => a
  | _ :: _ :: _ => .tuple rest

/-- Every task that is done in `ts` is done in `ts'`, with the same result. -/
def DoneKept (ts ts' : List jl_task_t) : Prop :=
  ∀ (t : Nat) (tt : jl_task_t), ts[t]? = some tt → tt.done = true →
    ∃ tt', ts'[t]? = some tt' ∧ tt'.done = true ∧ tt'.result = tt.result

/-- Every task of `ts` is in `ts'` with the same handler task and handler
context. -/
def HandlerKept (ts ts' : List jl_task_t) : Prop :=
  ∀ (i : Nat) (t : jl_task_t), ts[i]? = some t →
    ∃ t', ts'[i]? = some t' ∧ t'.state.eh_task = t.state.eh_task ∧
      t'.state.eh_ctx = t.state.eh_ctx

/-- Whether the operation installs a handler. -/
def installs_handler : Op → Bool
  | .enter_handler _ => true
  | _ => false

/-- Whether, in the run of `ops` from `s`, task `B` installs no handler: no
installation of a handler is performed while `B` is the current task. -/
def no_install_by (m : Machine) (B : Nat) : Runtime → List Op → Bool
  | _, [] => true
  | s, op :: ops =>
    (!installs_handler op || s.jl_current_task != B) &&
      match step m s op with
      | none => true
      | some (s', _) => no_install_by m B s' ops

/-! ### Example runs -/

/-- A 64-bit target with 4096-byte pages, the mark-and-sweep collector and a
frame offset of 256 bytes. -/
def example_machine : Machine :=
  { sizeof_ptr := 8, jl_page_size := 4096, BOEHM_GC := false, _frame_offset := 256 }

/-- A host whose allocator answers every request with the address 100000 and
whose `mprotect` succeeds. -/
def example_host : Host :=
  { allocb := fun _ => 100000, mprotect := fun _ _ => 0, strerror := "" }

/-- The state after `jl_init_tasks` on a stack of 8 MiB at address 0. -/
def example_init : Runtime := jl_init_tasks 0 8388608

/-- The state after the operations `ops`, started in `example_init` (which
is also the value when some operation is undefined). -/
def example_run (ops : List Op) : Runtime :=
  (run example_machine example_init ops).getD example_init

/-- The task object `i` after the operations `ops` (the root task of
`example_init` when there is no such object). -/
def example_task (ops : List Op) (i : Nat) : jl_task_t :=
  match (example_run ops).tasks[i]? with
  | some t => t
  | none =>
    { ssize := 0, stack := 0, _stkbase := 0, ctx := .unset, on_exit := 0, done := false,
      start := .NULL, result := .NULL,
      state := { err := false, eh_task := 0, eh_ctx := none, ostream_obj := .NULL,
                 current_output_stream := 0, prev := none } }

/-- Ping-pong, first part: the root task creates `P` and transfers to it with
`nil`; `P` is running its body. -/
def pingpong_1 : List Op :=
  [.Task example_host [.function 1], .yieldto [.task 1, .jl_null]]

/-- Ping-pong, second part: `P` has transferred `1` to the root task, the root
task has transferred `10` to `P`; `P` is running. -/
def pingpong_2 : List Op :=
  pingpong_1 ++ [.yieldto [.task 0, .int32 1], .yieldto [.task 1, .int32 10]]

/-- A task `P` whose body returns 42 at once; the root task is running again. -/
def done_task_run : List Op :=
  [.Task example_host [.function 1], .yieldto [.task 1], .body_returns (.int32 42)]

/-- The root task installs the handler 7, creates `P` and transfers to it;
`P` creates `Q` and transfers to it; `Q` is running. -/
def raise_run : List Op :=
  [.enter_handler 7, .Task example_host [.function 1], .yieldto [.task 1],
   .Task example_host [.function 2], .yieldto [.task 2]]

/-- Operations performed after `done_task_run`: another task is created and
run, and it transfers to the finished task. -/
def after_done_ops : List Op :=
  [.Task example_host [.function 2], .yieldto [.task 2], .yieldto [.task 1, .int32 3]]

/-- The root task creates `P` and transfers to it; `P` installs the handler 7
and is running. -/
def locality_before : List Op :=
  [.Task example_host [.function 1], .yieldto [.task 1], .enter_handler 7]

/-- After `locality_before`, `P` creates `Q` with `jl_new_task`. -/
def locality_create : List Op :=
  locality_before ++ [.new_task example_host (.function 2) 5000]

/-- After `locality_create`: `P` transfers 3 to `Q`; `Q` creates `R` and
transfers to it; `R` installs the handler 9 and transfers back to `Q`, which is
running. -/
def locality_after : List Op :=
  [.yieldto [.task 2, .int32 3], .Task example_host [.function 3], .yieldto [.task 3],
   .enter_handler 9, .yieldto [.task 2]]

/-! ## Theorems -/

/-! ### The probing code -/

theorem infer_loop_zero (bits : Nat) (pb : _probe_data) (up : Bool) (pd : Int) (i : Nat)
    (st : List Nat × Int) : infer_loop bits pb up pd 0 i st = some st := by
  simp [infer_loop]

theorem infer_loop_skip (bits : Nat) (pb : _probe_data) (up : Bool) (pd : Int) (k i : Nat)
    (offs : List Nat) (mf : Int) (h : pb.probe_env i = pb.probe_samePC i) :
    infer_loop bits pb up pd (k + 1) i (offs, mf)
      = infer_loop bits pb up pd k (i + 1) (offs, mf) := by
  simp [infer_loop, h]

theorem infer_loop_abort (bits : Nat) (pb : _probe_data) (up : Bool) (pd : Int) (k i : Nat)
    (offs : List Nat) (mf : Int) (h1 : pb.probe_env i ≠ pb.probe_samePC i)
    (h2 : pb.probe_env i ≠ pb.probe_sameAR i) :
    infer_loop bits pb up pd (k + 1) i (offs, mf) = none := by
  simp [infer_loop, h1, h2]

theorem infer_loop_record (bits : Nat) (pb : _probe_data) (up : Bool) (pd : Int) (k i : Nat)
    (offs : List Nat) (mf : Int) (h1 : pb.probe_env i ≠ pb.probe_samePC i)
    (h2 : pb.probe_env i = pb.probe_sameAR i)
    (h3 : wrap bits (pb.probe_env i - pb.probe_samePC i) = pd) :
    ∃ mf', infer_loop bits pb up pd (k + 1) i (offs, mf)
      = infer_loop bits pb up pd k (i + 1) (offs ++ [i], mf') := by
  refine ⟨if (up && decide (mf > pb.probe_env i)) || (!up && decide (mf < pb.probe_env i))
    then pb.probe_env i else mf, ?_⟩
  rw [infer_loop]
  simp only [ne_eq, h1, not_false_eq_true, if_true, h3]
  rw [if_neg (by simpa using h2)]

theorem infer_loop_other (bits : Nat) (pb : _probe_data) (up : Bool) (pd : Int) (k i : Nat)
    (offs : List Nat) (mf : Int) (h1 : pb.probe_env i ≠ pb.probe_samePC i)
    (h2 : pb.probe_env i = pb.probe_sameAR i)
    (h3 : wrap bits (pb.probe_env i - pb.probe_samePC i) ≠ pd) :
    infer_loop bits pb up pd (k + 1) i (offs, mf)
      = infer_loop bits pb up pd k (i + 1) (offs, mf) := by
  rw [infer_loop]
  simp only [ne_eq, h1, not_false_eq_true, if_true, h3, if_false]
  rw [if_neg (by simpa using h2)]

theorem infer_loop_none_iff (bits : Nat) (pb : _probe_data) (up : Bool) (pd : Int) :
    ∀ (k i : Nat) (st : List Nat × Int),
      infer_loop bits pb up pd k i st = none ↔
        ∃ j, i ≤ j ∧ j < i + k ∧ pb.probe_env j ≠ pb.probe_samePC j ∧
          pb.probe_env j ≠ pb.probe_sameAR j := by
  intro k
  induction k with
  | zero =>
    intro i st
    rw [infer_loop_zero]
    constructor
    · intro h; cases h
    · rintro ⟨j, h1, h2, -⟩; omega
  | succ k ih =>
    intro i st
    obtain ⟨offs, mf⟩ := st
    by_cases hb : pb.probe_env i ≠ pb.probe_samePC i ∧ pb.probe_env i ≠ pb.probe_sameAR i
    · rw [infer_loop_abort bits pb up pd k i offs mf hb.1 hb.2]
      exact ⟨fun _ => ⟨i, le_refl _, by omega, hb.1, hb.2⟩, fun _ => rfl⟩
    · have tail : ∀ st', (infer_loop bits pb up pd k (i + 1) st' = none ↔
          ∃ j, i ≤ j ∧ j < i + (k + 1) ∧ pb.probe_env j ≠ pb.probe_samePC j ∧
            pb.probe_env j ≠ pb.probe_sameAR j) := by
        intro st'
        rw [ih]
        constructor
        · rintro ⟨j, h1, h2, h3⟩
          exact ⟨j, by omega, by omega, h3⟩
        · rintro ⟨j, h1, h2, h3⟩
          rcases Nat.eq_or_lt_of_le h1 with h | h
          · subst h; exact absurd h3 hb
          · exact ⟨j, by omega, by omega, h3⟩
      by_cases h1 : pb.probe_env i = pb.probe_samePC i
      · rw [infer_loop_skip bits pb up pd k i offs mf h1]; exact tail _
      · have h2 : pb.probe_env i = pb.probe_sameAR i := by
          by_contra h2; exact hb ⟨h1, h2⟩
        by_cases h3 : wrap bits (pb.probe_env i - pb.probe_samePC i) = pd
        · obtain ⟨mf', e⟩ := infer_loop_record bits pb up pd k i offs mf h1 h2 h3
          rw [e]; exact tail _
        · rw [infer_loop_other bits pb up pd k i offs mf h1 h2 h3]; exact tail _

theorem infer_loop_offsets (bits : Nat) (pb : _probe_data) (up : Bool) (pd : Int) :
    ∀ (k i : Nat) (offs : List Nat) (mf : Int) (r : List Nat × Int),
      infer_loop bits pb up pd k i (offs, mf) = some r →
        r.1 = offs ++ (List.range' i k).filter fun j =>
          decide (pb.probe_env j ≠ pb.probe_samePC j ∧
            wrap bits (pb.probe_env j - pb.probe_samePC j) = pd) := by
  intro k
  induction k with
  | zero =>
    intro i offs mf r h
    rw [infer_loop_zero] at h
    cases h
    simp
  | succ k ih =>
    intro i offs mf r h
    rw [List.range'_succ]
    by_cases h1 : pb.probe_env i = pb.probe_samePC i
    · rw [infer_loop_skip bits pb up pd k i offs mf h1] at h
      rw [ih _ _ _ _ h, List.filter_cons_of_neg (by simp [h1])]
    · by_cases h2 : pb.probe_env i = pb.probe_sameAR i
      · by_cases h3 : wrap bits (pb.probe_env i - pb.probe_samePC i) = pd
        · obtain ⟨mf', e⟩ := infer_loop_record bits pb up pd k i offs mf h1 h2 h3
          rw [e] at h
          rw [ih _ _ _ _ h, List.filter_cons_of_pos (by simp [h1, h3])]
          simp
        · rw [infer_loop_other bits pb up pd k i offs mf h1 h2 h3] at h
          rw [ih _ _ _ _ h, List.filter_cons_of_neg (by simp [h1, h3])]
      · rw [infer_loop_abort bits pb up pd k i offs mf h1 h2] at h
        cases h

theorem rebase_foldl_not_mem (bits : Nat) (diff : Int) (j : Nat) :
    ∀ (offs : List Nat) (ctx : Nat → Int), j ∉ offs →
      offs.foldl (fun s off => Function.update s off (wrap bits (s off + diff))) ctx j
        = ctx j := by
  intro offs
  induction offs with
  | nil => intro ctx _; rfl
  | cons a t ih =>
    intro ctx h
    simp only [List.mem_cons, not_or] at h
    rw [List.foldl_cons, ih _ h.2, Function.update_noteq h.1]

theorem rebase_foldl_mem (bits : Nat) (diff : Int) (j : Nat) :
    ∀ (offs : List Nat) (ctx : Nat → Int), offs.Nodup → j ∈ offs →
      offs.foldl (fun s off => Function.update s off (wrap bits (s off + diff))) ctx j
        = wrap bits (ctx j + diff) := by
  intro offs
  induction offs with
  | nil => intro ctx _ h; cases h
  | cons a t ih =>
    intro ctx hnd h
    rw [List.nodup_cons] at hnd
    rw [List.foldl_cons]
    rcases List.mem_cons.1 h with h | h
    · subst h
      rw [rebase_foldl_not_mem bits diff j t _ hnd.1, Function.update_same]
    · have hne : j ≠ a := fun e => hnd.1 (e ▸ h)
      rw [ih _ hnd.2 h, Function.update_noteq hne]

theorem frame_offset_value (bits : Nat) (pd : Int) :
    (wrap bits (labs bits pd * 2) % 2 ^ bits).toNat = (2 * pd.natAbs) % 2 ^ bits := by
  have key : ∀ x : Int, (wrap bits x) % 2 ^ bits = x % 2 ^ bits := by
    intro x
    unfold wrap
    have := @Int.bmod_emod x (2 ^ bits)
    simpa using this
  have e1 : (wrap bits (labs bits pd * 2)) % 2 ^ bits = (2 * (pd.natAbs : Int)) % 2 ^ bits := by
    rw [key]
    have : labs bits pd = wrap bits (pd.natAbs : Int) := by
      unfold labs
      congr 1
      split_ifs with h <;> omega
    rw [this, Int.mul_emod, key, ← Int.mul_emod, mul_comm]
  rw [e1]
  have cast : ((2 * pd.natAbs % 2 ^ bits : Nat) : Int) = 2 * (pd.natAbs : Int) % 2 ^ bits := by
    push_cast; rfl
  rw [← cast]
  exact Int.toNat_ofNat _

theorem wrap_range (bits : Nat) (hb : 0 < bits) (x : Int) :
    -(2 ^ (bits - 1)) ≤ wrap bits x ∧ wrap bits x < 2 ^ (bits - 1) := by
  obtain ⟨n, rfl⟩ : ∃ n, bits = n + 1 := ⟨bits - 1, by omega⟩
  have hpos : 0 < 2 ^ (n + 1) := by positivity
  have h1 := @Int.le_bmod x (2 ^ (n + 1)) hpos
  have h2 := @Int.bmod_lt x (2 ^ (n + 1)) hpos
  have e : ((2 ^ (n + 1) : Nat) : Int) = 2 * 2 ^ n := by push_cast; ring
  rw [e] at h1 h2
  have h3 : ((2 : Int) * 2 ^ n) / 2 = 2 ^ n := by omega
  have h4 : ((2 : Int) * 2 ^ n + 1) / 2 = 2 ^ n := by omega
  rw [h3] at h1
  rw [h4] at h2
  simp only [Nat.add_sub_cancel]
  exact ⟨h1, h2⟩

/-- C10: for every triple of probed buffers and every `prior_diff` (and every
stack direction), with `sizeof(int) <= sizeof(intptr_t)`: the probe exits iff
some word index `i` below `sizeof(jmp_buf)/sizeof(intptr_t)` has
`probe_env[i] != probe_samePC[i]` and `probe_env[i] != probe_sameAR[i]`;
otherwise it returns, the offsets table is exactly the list of the indices `i`
with `probe_env[i] != probe_samePC[i]` and
`probe_env[i] - probe_samePC[i] == prior_diff`, strictly increasing, without
duplicates, no longer than the array `_offsets`, the frame offset is
`2*|prior_diff|` as a `size_t` (so reduced modulo the word size, and equal to
`2*|prior_diff|` itself unless `prior_diff` is the least `intptr_t`), and the
generic rebase adds `new_sp - local_sp` once to every recorded word and leaves
every other word as it was. -/
theorem probe_offsets_and_rebase (sizeof_jmp_buf sizeof_int sizeof_intptr : Nat)
    (hint : 0 < sizeof_int) (hle : sizeof_int ≤ sizeof_intptr) (up : Bool) (pb : _probe_data) :
    (_infer_jmpbuf_offsets sizeof_jmp_buf sizeof_intptr (ProbeGlobals.static up) pb = none ↔
      ∃ i, i < sizeof_jmp_buf / sizeof_intptr ∧ pb.probe_env i ≠ pb.probe_samePC i ∧
        pb.probe_env i ≠ pb.probe_sameAR i) ∧
    ((¬ ∃ i, i < sizeof_jmp_buf / sizeof_intptr ∧ pb.probe_env i ≠ pb.probe_samePC i ∧
        pb.probe_env i ≠ pb.probe_sameAR i) →
      ∃ g, _infer_jmpbuf_offsets sizeof_jmp_buf sizeof_intptr (ProbeGlobals.static up) pb
          = some g ∧
        g._offsets = stack_words (8 * sizeof_intptr) pb (sizeof_jmp_buf / sizeof_intptr) ∧
        (∀ i, i ∈ g._offsets ↔ i < sizeof_jmp_buf / sizeof_intptr ∧
          pb.probe_env i ≠ pb.probe_samePC i ∧
          wrap (8 * sizeof_intptr) (pb.probe_env i - pb.probe_samePC i)
            = wrap (8 * sizeof_intptr) (pb.probe_local - pb.prior_local)) ∧
        g._offsets.Pairwise (· < ·) ∧
        g._offsets.Nodup ∧
        g._offsets.length ≤ offsets_capacity sizeof_jmp_buf sizeof_int ∧
        g._frame_offset
          = (2 * (wrap (8 * sizeof_intptr) (pb.probe_local - pb.prior_local)).natAbs)
              % 2 ^ (8 * sizeof_intptr) ∧
        (wrap (8 * sizeof_intptr) (pb.probe_local - pb.prior_local)
            ≠ -(2 ^ (8 * sizeof_intptr - 1)) →
          g._frame_offset
            = 2 * (wrap (8 * sizeof_intptr) (pb.probe_local - pb.prior_local)).natAbs) ∧
        ∀ (ctx : Nat → Int) (local_sp new_sp : Int) (j : Nat),
          rebase_state (8 * sizeof_intptr) g._offsets ctx local_sp new_sp j
            = if j ∈ g._offsets then
                wrap (8 * sizeof_intptr) (ctx j + wrap (8 * sizeof_intptr) (new_sp - local_sp))
              else ctx j) := by
  have hptr : 0 < sizeof_intptr := lt_of_lt_of_le hint hle
  have hnone : _infer_jmpbuf_offsets sizeof_jmp_buf sizeof_intptr (ProbeGlobals.static up) pb
      = none ↔ ∃ i, i < sizeof_jmp_buf / sizeof_intptr ∧ pb.probe_env i ≠ pb.probe_samePC i ∧
        pb.probe_env i ≠ pb.probe_sameAR i := by
    unfold _infer_jmpbuf_offsets
    have h := infer_loop_none_iff (8 * sizeof_intptr) pb (ProbeGlobals.static up)._stack_grows_up
      (wrap (8 * sizeof_intptr) (pb.probe_local - pb.prior_local))
      (sizeof_jmp_buf / sizeof_intptr) 0 ((ProbeGlobals.static up)._offsets, pb.probe_local)
    simp only [Nat.zero_le, true_and, Nat.zero_add] at h
    rw [← h]
    simp only []
    split <;> simp_all
  refine ⟨hnone, fun hstable => ?_⟩
  have hsome : infer_loop (8 * sizeof_intptr) pb up
      (wrap (8 * sizeof_intptr) (pb.probe_local - pb.prior_local))
      (sizeof_jmp_buf / sizeof_intptr) 0 ([], pb.probe_local) ≠ none := by
    intro hn
    rw [infer_loop_none_iff] at hn
    obtain ⟨j, -, h2, h3⟩ := hn
    exact hstable ⟨j, by omega, h3⟩
  obtain ⟨r, hr⟩ := Option.ne_none_iff_exists'.1 hsome
  have hoffs := infer_loop_offsets _ _ _ _ _ _ _ _ _ hr
  simp only [List.nil_append] at hoffs
  have hrange : List.range' 0 (sizeof_jmp_buf / sizeof_intptr)
      = List.range (sizeof_jmp_buf / sizeof_intptr) := (List.range_eq_range' _).symm
  rw [hrange] at hoffs
  have hmem : ∀ i, i ∈ r.1 ↔ i < sizeof_jmp_buf / sizeof_intptr ∧
      pb.probe_env i ≠ pb.probe_samePC i ∧
      wrap (8 * sizeof_intptr) (pb.probe_env i - pb.probe_samePC i)
        = wrap (8 * sizeof_intptr) (pb.probe_local - pb.prior_local) := by
    intro i
    rw [hoffs]
    simp [List.mem_filter, List.mem_range]
  have hpw : r.1.Pairwise (· < ·) := by
    rw [hoffs]
    exact List.Pairwise.filter _ (List.pairwise_lt_range _)
  have hnd : r.1.Nodup := hpw.imp (fun h => Nat.ne_of_lt h)
  have hlen : r.1.length ≤ offsets_capacity sizeof_jmp_buf sizeof_int := by
    rw [hoffs]
    calc ((List.range (sizeof_jmp_buf / sizeof_intptr)).filter _).length
        ≤ (List.range (sizeof_jmp_buf / sizeof_intptr)).length := List.length_filter_le _ _
      _ = sizeof_jmp_buf / sizeof_intptr := List.length_range _
      _ ≤ sizeof_jmp_buf / sizeof_int := Nat.div_le_div_left hle hint
  have hfo := frame_offset_value (8 * sizeof_intptr)
    (wrap (8 * sizeof_intptr) (pb.probe_local - pb.prior_local))
  refine ⟨{ _offsets := r.1, _stack_grows_up := up,
            _frame_offset := (wrap (8 * sizeof_intptr)
              (labs (8 * sizeof_intptr)
                (wrap (8 * sizeof_intptr) (pb.probe_local - pb.prior_local)) * 2)
                % 2 ^ (8 * sizeof_intptr)).toNat }, ?_, hoffs, hmem, hpw, hnd, hlen, hfo, ?_, ?_⟩
  · unfold _infer_jmpbuf_offsets
    simp only [ProbeGlobals.static]
    rw [hr]
  · intro hmin
    simp only
    rw [hfo]
    apply Nat.mod_eq_of_lt
    have hb : 0 < 8 * sizeof_intptr := by omega
    obtain ⟨h1, h2⟩ := wrap_range (8 * sizeof_intptr) hb (pb.probe_local - pb.prior_local)
    generalize wrap (8 * sizeof_intptr) (pb.probe_local - pb.prior_local) = pd at h1 h2 hmin ⊢
    obtain ⟨n, hn⟩ : ∃ n, 8 * sizeof_intptr = n + 1 := ⟨8 * sizeof_intptr - 1, by omega⟩
    rw [hn] at h1 h2 hmin ⊢
    simp only [Nat.add_sub_cancel] at h1 h2 hmin
    have hp : (2 : Nat) ^ (n + 1) = 2 * 2 ^ n := by ring
    rw [hp]
    have : (pd.natAbs : Int) < 2 ^ n := by
      rcases lt_or_eq_of_le h1 with h | h
      · omega
      · exact absurd h.symm hmin
    have h' : pd.natAbs < 2 ^ n := by exact_mod_cast this
    omega
  · intro ctx local_sp new_sp j
    simp only
    unfold rebase_state
    by_cases hj : j ∈ r.1
    · rw [if_pos hj]
      exact rebase_foldl_mem _ _ _ _ _ hnd hj
    · rw [if_neg hj]
      exact rebase_foldl_not_mem _ _ _ _ _ hj

/-- The probe of `probe_example` on a target with 32-byte jump buffers, 4-byte
`int` and 8-byte `intptr_t`: it returns, records the words 1 and 3, and sets the
frame offset to 32. -/
theorem probe_offsets_and_rebase_witness :
    (0 < 4 ∧ 4 ≤ 8) ∧
    ∃ g, _infer_jmpbuf_offsets 32 8 (ProbeGlobals.static false) probe_example = some g ∧
      g._offsets = [1, 3] ∧ g._frame_offset = 32 := by
  refine ⟨⟨by decide, by decide⟩, ?_⟩
  obtain ⟨g, h1, h2, -, -, -, -, h3, -⟩ :=
    (probe_offsets_and_rebase 32 4 8 (by decide) (by decide) false probe_example).2 (by decide)
  refine ⟨g, h1, ?_, ?_⟩
  · rw [h2]; decide
  · rw [h3]; decide

/-! ### The stack of a new task -/

theorem LLT_ALIGN_spec (bits x p : Nat) (hp : 0 < p) (hx : x + (p - 1) < 2 ^ bits) :
    p ∣ LLT_ALIGN bits x p ∧ x ≤ LLT_ALIGN bits x p ∧ LLT_ALIGN bits x p ≤ x + (p - 1) ∧
      ∀ n, p ∣ n → x ≤ n → LLT_ALIGN bits x p ≤ n := by
  have hdm := Nat.div_add_mod (x + (p - 1)) p
  have hml := Nat.mod_lt (x + (p - 1)) hp
  have hle : (x + (p - 1)) / p * p ≤ x + (p - 1) := Nat.div_mul_le_self _ _
  have hval : LLT_ALIGN bits x p = p * ((x + (p - 1)) / p) := by
    unfold LLT_ALIGN
    rw [Nat.mod_eq_of_lt (lt_of_le_of_lt hle hx), Nat.mul_comm]
  rw [hval]
  refine ⟨Nat.dvd_mul_right _ _, by omega, by omega, ?_⟩
  rintro n ⟨c, rfl⟩ hxn
  apply Nat.mul_le_mul_left
  apply Nat.le_of_lt_succ
  rw [Nat.div_lt_iff_lt_mul hp]
  have : (c + 1) * p = p * c + p := by ring
  rw [this]
  omega


theorem wsub_eq (bits a b : Nat) (hb : b ≤ a) (ha : a < 2 ^ bits) : wsub bits a b = a - b := by
  unfold wsub
  have hb' : b % 2 ^ bits = b := Nat.mod_eq_of_lt (by omega)
  rw [hb']
  have : a + (2 ^ bits - b) = (a - b) + 2 ^ bits := by omega
  rw [this, Nat.add_mod_right]
  exact Nat.mod_eq_of_lt (by omega)

/-- C9: let the page size be a power of two, `L` the least multiple of the page
size that is at least the requested size, and let the allocation of
`L + 2*pagesize - 1` bytes at the address `raw` the allocator returns end below
the top of the address space (no address overflow), `mprotect` succeeding. Then
for every requested size `jl_new_task` reaches `init_task` with a task object
`t` and the guard page at `base` such that: `t->ssize` is `L`; the allocation
request is `ssize + 2*pagesize - 1` bytes and `raw` is kept in `_stkbase`; `base`
is page-aligned with `raw <= base <= raw + pagesize - 1`; the usable stack
begins at `base + pagesize`; and the guard page `[base, base+pagesize)` and the
usable stack `[stack, stack+ssize)` lie inside the allocation
`[raw, raw + ssize + 2*pagesize - 1)`. When `_frame_offset <= L` the frame copy
of `init_task` fills the top of the usable stack and `jl_new_task` returns the
task `t`; when `L < _frame_offset` the copy starts in the guard page and the
call faults. -/
theorem jl_new_task_stack_layout (m : Machine) (host : Host) (s : Runtime) (cur : jl_task_t)
    (start : jl_value_t) (ssize k L : Nat)
    (hpage : m.jl_page_size = 2 ^ k)
    (hcur : s.tasks[s.jl_current_task]? = some cur)
    (hL1 : m.jl_page_size ∣ L) (hL2 : ssize ≤ L)
    (hL3 : ∀ n, m.jl_page_size ∣ n → ssize ≤ n → L ≤ n)
    (haddr : host.allocb (L + 2 * m.jl_page_size - 1) + (L + 2 * m.jl_page_size - 1)
      < 2 ^ m.bits)
    (hprot : host.mprotect
      (LLT_ALIGN m.bits (host.allocb (L + 2 * m.jl_page_size - 1)) m.jl_page_size)
      (m.jl_page_size - 1) ≠ -1) :
    ∃ t raw base,
      jl_new_task m host s start ssize
        = (init_task m base t).map
            (fun t' => ({ s with tasks := s.tasks ++ [t'] }, Event.returns (.task s.tasks.length))) ∧
      t.ssize = L ∧
      stack_alloc_size m t.ssize = t.ssize + 2 * m.jl_page_size - 1 ∧
      raw = host.allocb (stack_alloc_size m t.ssize) ∧
      t._stkbase = raw ∧
      m.jl_page_size ∣ base ∧ raw ≤ base ∧ base ≤ raw + (m.jl_page_size - 1) ∧
      t.stack = base + m.jl_page_size ∧
      base + m.jl_page_size ≤ raw + (t.ssize + 2 * m.jl_page_size - 1) ∧
      raw ≤ t.stack ∧
      t.stack + t.ssize ≤ raw + (t.ssize + 2 * m.jl_page_size - 1) ∧
      (m._frame_offset ≤ L →
        t.stack ≤ new_sp m t ∧ new_sp m t + m._frame_offset = t.stack + t.ssize ∧
        ∃ s', jl_new_task m host s start ssize
            = some (s', .returns (.task s.tasks.length)) ∧
          s'.tasks[s.tasks.length]? = some { t with ctx := .init_task }) ∧
      (L < m._frame_offset → m._frame_offset ≤ t.stack + L → 1 < m.jl_page_size →
        jl_new_task m host s start ssize = none) := by
  have hp : 0 < m.jl_page_size := by rw [hpage]; positivity
  obtain ⟨a1, a2, -, a4⟩ := LLT_ALIGN_spec m.bits ssize m.jl_page_size hp (by omega)
  have haL : LLT_ALIGN m.bits ssize m.jl_page_size = L :=
    le_antisymm (a4 L hL1 hL2) (hL3 _ a1 a2)
  have hsz : stack_alloc_size m L = L + 2 * m.jl_page_size - 1 := by
    unfold stack_alloc_size
    rw [Nat.mod_eq_of_lt (by omega)]
    omega
  generalize hraw : host.allocb (L + 2 * m.jl_page_size - 1) = raw at *
  obtain ⟨b1, b2, b3, -⟩ := LLT_ALIGN_spec m.bits raw m.jl_page_size hp (by omega)
  generalize hb : LLT_ALIGN m.bits raw m.jl_page_size = base at *
  have hstack : (base + m.jl_page_size) % 2 ^ m.bits = base + m.jl_page_size :=
    Nat.mod_eq_of_lt (by omega)
  let t : jl_task_t :=
    { ssize := L
      stack := (base + m.jl_page_size) % 2 ^ m.bits
      _stkbase := raw
      ctx := .unset
      on_exit := s.jl_current_task
      done := false
      start := start
      result := .NULL
      state :=
        { err := false
          eh_task := cur.state.eh_task
          eh_ctx := none
          ostream_obj := cur.state.ostream_obj
          current_output_stream := cur.state.current_output_stream
          prev := none } }
  have hcall : jl_new_task m host s start ssize
      = (init_task m base t).map
          (fun t' => ({ s with tasks := s.tasks ++ [t'] },
            Event.returns (.task s.tasks.length))) := by
    unfold jl_new_task
    simp only [hcur, haL, hsz, hraw, hb, if_neg hprot]
    cases init_task m base t <;> rfl
  have hsum : (t.stack + t.ssize) % 2 ^ m.bits = base + m.jl_page_size + L := by
    show ((base + m.jl_page_size) % 2 ^ m.bits + L) % 2 ^ m.bits = _
    rw [hstack]
    exact Nat.mod_eq_of_lt (by omega)
  refine ⟨t, raw, base, hcall, rfl, hsz, ?_, rfl, b1, b2, b3, hstack, ?_, ?_, ?_, ?_, ?_⟩
  · show raw = host.allocb (stack_alloc_size m L)
    rw [hsz, hraw]
  · show base + m.jl_page_size ≤ raw + (L + 2 * m.jl_page_size - 1)
    omega
  · show raw ≤ (base + m.jl_page_size) % 2 ^ m.bits
    rw [hstack]; omega
  · show (base + m.jl_page_size) % 2 ^ m.bits + L ≤ raw + (L + 2 * m.jl_page_size - 1)
    rw [hstack]; omega
  · intro hfo
    have hnsp : new_sp m t = base + m.jl_page_size + L - m._frame_offset := by
      unfold new_sp
      rw [hsum]
      exact wsub_eq _ _ _ (by omega) (by omega)
    have hts : t.stack = base + m.jl_page_size := hstack
    have htz : t.ssize = L := rfl
    refine ⟨by rw [hnsp, hts]; omega, by rw [hnsp, hts, htz]; omega, ?_⟩
    have hno : ¬ copy_hits_guard m base t := by
      rintro ⟨-, -, h3, -⟩
      rw [hnsp] at h3
      omega
    refine ⟨{ s with tasks := s.tasks ++ [{ t with ctx := .init_task }] }, ?_, ?_⟩
    · rw [hcall]
      simp only [init_task, if_neg hno, Option.map]
    · simp
  · intro hlt hle hpg
    have hnsp : new_sp m t = base + m.jl_page_size + L - m._frame_offset := by
      unfold new_sp
      rw [hsum]
      exact wsub_eq _ _ _ (by rw [← hstack]; exact hle) (by omega)
    have hts : t.stack = base + m.jl_page_size := hstack
    rw [hts] at hle
    have hyes : copy_hits_guard m base t := by
      refine ⟨hpg, by omega, ?_, ?_⟩
      · rw [hnsp]; omega
      · rw [hnsp]; omega
    rw [hcall]
    simp only [init_task, if_pos hyes, Option.map]

/-! ### The invariant of the task layer -/

theorem getElem?_set_cases {α : Type} (l : List α) (i j : Nat) (a b : α)
    (h : (l.set i a)[j]? = some b) :
    (j = i ∧ i < l.length ∧ b = a) ∨ (j ≠ i ∧ l[j]? = some b) := by
  rw [List.getElem?_set] at h
  by_cases hij : i = j
  · subst hij
    simp only [if_true] at h
    by_cases hl : i < l.length
    · simp only [hl, if_true, Option.some.injEq] at h
      exact Or.inl ⟨rfl, hl, h.symm⟩
    · simp [hl] at h
  · simp only [hij, if_false] at h
    exact Or.inr ⟨fun e => hij e.symm, h⟩

theorem lt_length_of_getElem? {α : Type} {l : List α} {i : Nat} {a : α}
    (h : l[i]? = some a) : i < l.length := by
  rw [List.getElem?_eq_some] at h
  exact h.1

/-- Replacing the task object `i` and making `c` the current task keeps the
invariant, when the new object has the old `on_exit`, a valid handler task
(the root's own for the root), a terminal context if it is done, and the new
current task and the root are not done. -/
theorem TaskInv.set {s : Runtime} (hs : TaskInv s) (i c : Nat) (x x' : jl_task_t)
    (a : jl_value_t) (n : Nat) (e : jl_value_t)
    (hx : s.tasks[i]? = some x)
    (h1 : x'.on_exit = x.on_exit)
    (h2 : x'.state.eh_task < s.tasks.length)
    (h3 : i = 0 → x'.state.eh_task = 0 ∧ x'.done = false)
    (h4 : x'.done = true → x'.ctx = .jl_raise ∨ x'.ctx = .switchto .init_task)
    (h5 : c = i → x'.done = false)
    (h6 : c ≠ i → ∃ tt, s.tasks[c]? = some tt ∧ tt.done = false)
    (h7 : x'.ctx.terminal → x'.done = true)
    (h8 : c = s.jl_current_task ∨ i = s.jl_current_task)
    (h9 : i ≠ c → x'.ctx.switched ∨ (x'.ctx = x.ctx ∧ i ≠ s.jl_current_task)) :
    TaskInv
      { tasks := s.tasks.set i x', jl_current_task := c, jl_root_task := s.jl_root_task,
        task_arg_in_transit := a, n_args_in_transit := n, jl_exception_in_transit := e } := by
  have hi := lt_length_of_getElem? hx
  constructor
  · exact hs.root_zero
  · show c < (s.tasks.set i x').length
    rw [List.length_set]
    by_cases hc : c = i
    · omega
    · obtain ⟨tt, ht, -⟩ := h6 hc
      exact lt_length_of_getElem? ht
  · intro j t ht
    rcases getElem?_set_cases _ _ _ _ _ ht with ⟨rfl, -, rfl⟩ | ⟨-, h⟩
    · rw [h1]; exact hs.on_exit_lt _ _ hx
    · exact hs.on_exit_lt _ _ h
  · intro j t ht
    show _ < (s.tasks.set i x').length
    rw [List.length_set]
    rcases getElem?_set_cases _ _ _ _ _ ht with ⟨rfl, -, rfl⟩ | ⟨-, h⟩
    · exact h2
    · exact hs.eh_lt _ _ h
  · intro t ht
    rcases getElem?_set_cases _ _ _ _ _ ht with ⟨h0, -, rfl⟩ | ⟨-, h⟩
    · exact (h3 h0.symm).1
    · exact hs.root_eh _ h
  · intro t ht
    rcases getElem?_set_cases _ _ _ _ _ ht with ⟨hc, -, rfl⟩ | ⟨hc, h⟩
    · exact h5 hc
    · obtain ⟨tt, ht', hd⟩ := h6 hc
      rw [ht'] at h
      cases h
      exact hd
  · intro t ht
    rcases getElem?_set_cases _ _ _ _ _ ht with ⟨h0, -, rfl⟩ | ⟨-, h⟩
    · exact (h3 h0.symm).2
    · exact hs.root_not_done _ h
  · intro j t ht hd
    rcases getElem?_set_cases _ _ _ _ _ ht with ⟨rfl, -, rfl⟩ | ⟨-, h⟩
    · exact h4 hd
    · exact hs.done_ctx _ _ h hd
  · intro j t ht hd
    rcases getElem?_set_cases _ _ _ _ _ ht with ⟨rfl, -, rfl⟩ | ⟨-, h⟩
    · exact h7 hd
    · exact hs.term_done _ _ h hd
  · intro j u p hu hp
    show u.on_exit = c ∨ _
    -- the task object `u` before the update has the same `on_exit`
    obtain ⟨u0, hu0, hue⟩ : ∃ u0, s.tasks[j]? = some u0 ∧ u0.on_exit = u.on_exit := by
      rcases getElem?_set_cases _ _ _ _ _ hu with ⟨rfl, -, rfl⟩ | ⟨-, h⟩
      · exact ⟨x, hx, h1.symm⟩
      · exact ⟨u, h, rfl⟩
    by_cases hqc : u.on_exit = c
    · exact Or.inl hqc
    · right
      rcases getElem?_set_cases _ _ _ _ _ hp with ⟨hqi, -, rfl⟩ | ⟨hqi, h⟩
      · rcases h9 (fun e => hqc (hqi.trans e)) with h | ⟨h, hne⟩
        · exact h
        · rw [h]
          rcases hs.exit_ctx j u0 x hu0 (by rw [hue, hqi]; exact hx) with h' | h'
          · rw [hue, hqi] at h'; exact absurd h' hne
          · exact h'
      · rcases hs.exit_ctx j u0 p hu0 (by rw [hue]; exact h) with h' | h'
        · rw [hue] at h'
          rcases h8 with h8 | h8
          · exact absurd (h'.trans h8.symm) hqc
          · exact absurd (h'.trans h8.symm) hqi
        · exact h'

/-- The invariant does not depend on the transit slots. -/
theorem TaskInv.slots {s : Runtime} (hs : TaskInv s) (a : jl_value_t) (n : Nat) (e : jl_value_t) :
    TaskInv
      { tasks := s.tasks, jl_current_task := s.jl_current_task, jl_root_task := s.jl_root_task,
        task_arg_in_transit := a, n_args_in_transit := n, jl_exception_in_transit := e } :=
  ⟨hs.root_zero, hs.cur_lt, hs.on_exit_lt, hs.eh_lt, hs.root_eh, hs.cur_not_done,
    hs.root_not_done, hs.done_ctx, hs.term_done, hs.exit_ctx⟩

theorem TaskInv.congr {s s' : Runtime} (hs : TaskInv s) (h1 : s'.tasks = s.tasks)
    (h2 : s'.jl_current_task = s.jl_current_task) (h3 : s'.jl_root_task = s.jl_root_task) :
    TaskInv s' := by
  obtain ⟨ts, c, r, a, n, e⟩ := s'
  simp only at h1 h2 h3
  subst h1 h2 h3
  exact hs.slots a n e


theorem resume_core {s s' : Runtime} {t : Nat} {r : Resume} {ev : Event}
    (h : resume s t r = some (s', ev)) :
    s'.tasks = s.tasks ∧ s'.jl_current_task = s.jl_current_task ∧
      s'.jl_root_task = s.jl_root_task ∧ s'.n_args_in_transit = s.n_args_in_transit ∧
      s'.jl_exception_in_transit = s.jl_exception_in_transit := by
  cases r with
  | unset => simp [resume] at h
  | init_task =>
    simp only [resume] at h
    split at h
    · cases h
    · split at h
      · cases h; simp
      · split at h
        · cases h; simp
        · split at h
          · split at h
            · cases h; simp
            · cases h
          · cases h
  | switchto caller =>
    cases caller <;> simp only [resume] at h <;> cases h <;> simp
  | jl_raise =>
    simp only [resume] at h
    cases h; simp

theorem longjmp_core {s s' : Runtime} {w : Option JmpTarget} {ev : Event}
    (h : longjmp s w = some (s', ev)) :
    s'.tasks = s.tasks ∧ s'.jl_current_task = s.jl_current_task ∧
      s'.jl_root_task = s.jl_root_task ∧ s'.n_args_in_transit = s.n_args_in_transit ∧
      s'.jl_exception_in_transit = s.jl_exception_in_transit := by
  rcases w with _ | ⟨t | hh⟩
  · simp [longjmp] at h
  · simp only [longjmp] at h
    split at h
    · cases h
    · exact resume_core h
  · simp only [longjmp] at h
    cases h; simp

theorem ctx_switch_core {s s' : Runtime} {t : Nat} {w : Option JmpTarget} {site : Resume}
    {ev : Event} (h : ctx_switch s t w site = some (s', ev)) :
    ∃ cur, s.tasks[s.jl_current_task]? = some cur ∧
      s'.tasks = s.tasks.set s.jl_current_task { cur with ctx := site } ∧
      s'.jl_current_task = t ∧ s'.jl_root_task = s.jl_root_task ∧
      s'.n_args_in_transit = s.n_args_in_transit ∧
      s'.jl_exception_in_transit = s.jl_exception_in_transit := by
  simp only [ctx_switch] at h
  split at h
  · cases h
  · rename_i cur hcur
    obtain ⟨h1, h2, h3, h4, h5⟩ := longjmp_core h
    exact ⟨cur, hcur, h1, h2, h3, h4, h5⟩

theorem finish_task_core {s s' : Runtime} {t : Nat} {r : jl_value_t}
    (h : finish_task s t r = some s') :
    ∃ tt, s.tasks[t]? = some tt ∧ tt.done = false ∧
      s' = { s with tasks := s.tasks.set t { tt with done := true, result := r } } := by
  simp only [finish_task] at h
  split at h
  · cases h
  · rename_i tt htt
    split at h
    · cases h
    · rename_i hd
      cases h
      exact ⟨tt, htt, by simpa using hd, rfl⟩

theorem switchto_core {s s' : Runtime} {t : Nat} {caller : Caller} {ev : Event}
    (h : switchto s t caller = some (s', ev)) :
    ∃ tt, s.tasks[t]? = some tt ∧
      ((tt.done = true ∧ s'.tasks = s.tasks ∧ s'.jl_current_task = s.jl_current_task ∧
          s'.jl_root_task = s.jl_root_task ∧ ev = .returns tt.result ∧
          s'.task_arg_in_transit = .jl_null) ∨
        (tt.done = false ∧ ∃ cur, s.tasks[s.jl_current_task]? = some cur ∧
          s'.tasks = s.tasks.set s.jl_current_task { cur with ctx := .switchto caller } ∧
          s'.jl_current_task = t ∧ s'.jl_root_task = s.jl_root_task)) := by
  simp only [switchto] at h
  split at h
  · cases h
  · rename_i tt htt
    refine ⟨tt, htt, ?_⟩
    split at h
    · rename_i hd
      cases h
      exact Or.inl ⟨hd, rfl, rfl, rfl, rfl, rfl⟩
    · rename_i hd
      obtain ⟨cur, h1, h2, h3, h4, -⟩ := ctx_switch_core h
      exact Or.inr ⟨by simpa using hd, cur, h1, h2, h3, h4⟩

theorem TaskInv.ctx_switch {s s' : Runtime} (hs : TaskInv s) {t : Nat} {tt : jl_task_t}
    {w : Option JmpTarget} {site : Resume} {ev : Event}
    (ht : s.tasks[t]? = some tt) (hd : tt.done = false)
    (hsite : site.switched ∧ ¬ site.terminal)
    (h : ctx_switch s t w site = some (s', ev)) : TaskInv s' := by
  obtain ⟨cur, h1, h2, h3, h4, -⟩ := ctx_switch_core h
  have hcd := hs.cur_not_done _ h1
  refine TaskInv.congr (hs.set s.jl_current_task t cur { cur with ctx := site } .NULL 0 .NULL
    h1 rfl (hs.eh_lt _ cur h1) (fun h0 => ⟨?_, hcd⟩) (fun h => ?_) (fun _ => hcd)
    (fun _ => ⟨tt, ht, hd⟩) (fun h => absurd h hsite.2) (Or.inr rfl)
    (fun _ => Or.inl hsite.1)) h2 h3 h4
  · rw [h0] at h1; exact hs.root_eh cur h1
  · rw [show cur.done = false from hcd] at h; cases h

theorem TaskInv.switchto {s s' : Runtime} (hs : TaskInv s) {t : Nat} {caller : Caller}
    {ev : Event} (hcaller : caller ≠ .init_task)
    (h : switchto s t caller = some (s', ev)) : TaskInv s' := by
  simp only [JlTask.switchto] at h
  split at h
  · cases h
  · rename_i tt htt
    split at h
    · cases h
      exact hs.slots _ _ _
    · rename_i hd
      refine hs.ctx_switch htt (by simpa using hd) ⟨Or.inr ⟨caller, rfl⟩, ?_⟩ h
      rintro (h | h)
      · cases h
      · cases h; exact hcaller rfl

theorem longjmp_handler {s s' : Runtime} {w : Option Nat} {ev : Event}
    (h : longjmp s (w.map JmpTarget.handler_ctx) = some (s', ev)) :
    ∃ hc, w = some hc ∧ s' = s ∧ ev = .handler hc := by
  cases w with
  | none => simp [longjmp] at h
  | some hc =>
    simp only [Option.map, longjmp] at h
    cases h
    exact ⟨hc, rfl, rfl, rfl⟩

theorem ctx_switch_handler {s s' : Runtime} {t : Nat} {w : Option Nat} {site : Resume}
    {ev : Event} (h : ctx_switch s t (w.map JmpTarget.handler_ctx) site = some (s', ev)) :
    ∃ cur hc, s.tasks[s.jl_current_task]? = some cur ∧ w = some hc ∧ ev = .handler hc ∧
      s' = { s with tasks := s.tasks.set s.jl_current_task { cur with ctx := site },
                    jl_current_task := t } := by
  simp only [ctx_switch] at h
  split at h
  · cases h
  · rename_i cur hcur
    obtain ⟨hc, h1, h2, h3⟩ := longjmp_handler h
    exact ⟨cur, hc, hcur, h1, h3, h2⟩

theorem jl_raise_core {s s' : Runtime} {e : jl_value_t} {ev : Event}
    (h : jl_raise s e = some (s', ev)) :
    ∃ c eht, s.tasks[s.jl_current_task]? = some c ∧
      s.tasks[c.state.eh_task]? = some eht ∧
      s'.jl_root_task = s.jl_root_task ∧ s'.jl_exception_in_transit = e ∧
      s'.task_arg_in_transit = s.task_arg_in_transit ∧
      s'.n_args_in_transit = s.n_args_in_transit ∧
      ((s.jl_current_task = c.state.eh_task ∧
          s'.tasks = s.tasks.set c.state.eh_task
            { eht with state := { eht.state with err := true } } ∧
          s'.jl_current_task = s.jl_current_task ∧
          ∃ hc, eht.state.eh_ctx = some hc ∧ ev = .handler hc) ∨
        (s.jl_current_task ≠ c.state.eh_task ∧ c.done = false ∧
          s'.tasks = (s.tasks.set c.state.eh_task
              { eht with state := { eht.state with err := true } }).set s.jl_current_task
              { c with done := true, result := e, ctx := .jl_raise } ∧
          s'.jl_current_task
            = (if eht.done || eht.state.eh_ctx.isNone then s.jl_root_task
               else c.state.eh_task) ∧
          ∃ eht' hc,
            (s.tasks.set c.state.eh_task
              { eht with state := { eht.state with err := true } })[s'.jl_current_task]?
                = some eht' ∧
            eht'.state.eh_ctx = some hc ∧ ev = .handler hc)) := by
  simp only [jl_raise] at h
  split at h
  · cases h
  · rename_i c hc
    split at h
    · cases h
    · rename_i eht heht
      refine ⟨c, eht, hc, heht, ?_⟩
      split at h
      · rename_i heq
        obtain ⟨hh, h1, h2, h3⟩ := longjmp_handler h
        subst h2
        exact ⟨rfl, rfl, rfl, rfl, Or.inl ⟨heq, rfl, rfl, hh, h1, h3⟩⟩
      · rename_i hne
        split at h
        · cases h
        · rename_i s2 hs2
          obtain ⟨c1, hc1, hc1d, rfl⟩ := finish_task_core hs2
          simp only at hc1 h
          rw [List.getElem?_set_ne (fun e => hne e.symm)] at hc1
          rw [hc] at hc1
          cases hc1
          split at h
          · cases h
          · rename_i eht' heht'
            obtain ⟨c2, hc', hc2, hw, hev, rfl⟩ := ctx_switch_handler h
            simp only at hc2 heht'
            rw [List.getElem?_set_self (by
              rw [List.length_set]; exact lt_length_of_getElem? hc)] at hc2
            cases hc2
            refine ⟨rfl, rfl, rfl, rfl, Or.inr ⟨hne, by simpa using hc1d, ?_, rfl, ?_⟩⟩
            · simp only [List.set_set]
            · rcases getElem?_set_cases _ _ _ _ _ heht' with ⟨h1, -, h3⟩ | ⟨-, h2⟩
              · refine ⟨c, hc', ?_, ?_, hev⟩
                · rw [h1, List.getElem?_set_ne (fun e => hne e.symm)]
                  exact hc
                · rw [← hw, h3]
              · exact ⟨eht', hc', h2, hw, hev⟩

theorem TaskInv.set_err {s : Runtime} (hs : TaskInv s) {i : Nat} {x : jl_task_t}
    (hx : s.tasks[i]? = some x) (a : jl_value_t) (n : Nat) (e : jl_value_t) :
    TaskInv
      { tasks := s.tasks.set i { x with state := { x.state with err := true } },
        jl_current_task := s.jl_current_task, jl_root_task := s.jl_root_task,
        task_arg_in_transit := a, n_args_in_transit := n, jl_exception_in_transit := e } := by
  obtain ⟨c, hc⟩ : ∃ c, s.tasks[s.jl_current_task]? = some c :=
    ⟨_, List.getElem?_eq_getElem hs.cur_lt⟩
  refine hs.set i s.jl_current_task x _ a n e hx rfl (hs.eh_lt _ x hx)
    (fun h0 => ⟨?_, ?_⟩) (fun h => hs.done_ctx _ x hx h) (fun h => ?_)
    (fun _ => ⟨c, hc, hs.cur_not_done c hc⟩) (fun h => hs.term_done _ x hx h) (Or.inl rfl)
    (fun h => Or.inr ⟨rfl, h⟩)
  · subst h0; exact hs.root_eh x hx
  · subst h0; exact hs.root_not_done x hx
  · rw [h] at hc; rw [hx] at hc; cases hc; exact hs.cur_not_done x (h ▸ hx)

theorem TaskInv.jl_raise {s s' : Runtime} (hs : TaskInv s) {e : jl_value_t} {ev : Event}
    (h : jl_raise s e = some (s', ev)) : TaskInv s' := by
  obtain ⟨c, eht, hc, heht, hroot, -, -, -, hcase⟩ := jl_raise_core h
  have hs1 := hs.set_err heht s.task_arg_in_transit s.n_args_in_transit e
  rcases hcase with ⟨-, ht, hcur, -⟩ | ⟨hne, hcd, ht, hcur, -⟩
  · exact TaskInv.congr hs1 ht hcur hroot
  · have hc1 : (s.tasks.set c.state.eh_task
        { eht with state := { eht.state with err := true } })[s.jl_current_task]? = some c := by
      rw [List.getElem?_set_ne (fun e => hne e.symm)]; exact hc
    have hcur0 : s.jl_current_task ≠ 0 := by
      intro h0
      rw [h0] at hc hne
      exact hne (hs.root_eh c hc).symm
    have h0lt : 0 < s.tasks.length := lt_of_le_of_lt (Nat.zero_le _) hs.cur_lt
    refine TaskInv.congr (hs1.set s.jl_current_task s'.jl_current_task c
      { c with done := true, result := e, ctx := .jl_raise } .NULL 0 .NULL hc1 rfl
      (hs1.eh_lt _ c hc1) (fun h0 => absurd h0 hcur0) (fun _ => Or.inl rfl) ?_ ?_
      (fun _ => rfl) (Or.inr rfl) (fun _ => Or.inl (Or.inl rfl))) ht rfl hroot
    · intro heq
      exfalso
      rw [hcur] at heq
      split at heq
      · rw [hs.root_zero] at heq; exact hcur0 heq.symm
      · exact hne heq.symm
    · intro _
      rw [hcur]
      split
      · rw [hs.root_zero]
        obtain ⟨r, hr⟩ : ∃ r, (s.tasks.set c.state.eh_task
            { eht with state := { eht.state with err := true } })[0]? = some r :=
          ⟨_, List.getElem?_eq_getElem (by rw [List.length_set]; exact h0lt)⟩
        exact ⟨r, hr, hs1.root_not_done r hr⟩
      · rename_i hcond
        refine ⟨{ eht with state := { eht.state with err := true } }, ?_, ?_⟩
        · exact List.getElem?_set_self (lt_length_of_getElem? heht)
        · simp only [Bool.or_eq_true, not_or, Bool.not_eq_true] at hcond
          exact hcond.1

theorem TaskInv.jl_error {s s' : Runtime} (hs : TaskInv s) {msg : String} {ev : Event}
    (h : jl_error s msg = some (s', ev)) : TaskInv s' :=
  hs.jl_raise h

theorem exit_loop_not_done (ts : List jl_task_t) :
    ∀ (fuel c cont : Nat), exit_loop ts fuel c = some cont →
      ∃ t, ts[cont]? = some t ∧ t.done = false := by
  intro fuel
  induction fuel with
  | zero => intro c cont h; simp [exit_loop] at h
  | succ fuel ih =>
    intro c cont h
    simp only [exit_loop] at h
    split at h
    · cases h
    · rename_i t ht
      split at h
      · exact ih _ _ h
      · rename_i hd
        cases h
        exact ⟨t, ht, by simpa using hd⟩

theorem exit_loop_terminates (ts : List jl_task_t)
    (h1 : ∀ (i : Nat) (t : jl_task_t), ts[i]? = some t → t.on_exit < i ∨ (i = 0 ∧ t.on_exit = 0))
    (h2 : ∀ t : jl_task_t, ts[0]? = some t → t.done = false) :
    ∀ (fuel c : Nat), c < ts.length → c < fuel → ∃ cont, exit_loop ts fuel c = some cont := by
  intro fuel
  induction fuel with
  | zero => intro c _ h; omega
  | succ fuel ih =>
    intro c hc hf
    obtain ⟨t, ht⟩ : ∃ t, ts[c]? = some t := ⟨_, List.getElem?_eq_getElem hc⟩
    simp only [exit_loop, ht]
    by_cases hd : t.done = true
    · simp only [hd, if_true]
      rcases h1 c t ht with h | ⟨h0, -⟩
      · exact ih _ (by omega) (by omega)
      · subst h0
        rw [h2 t ht] at hd
        cases hd
    · simp only [hd]
      exact ⟨c, rfl⟩

theorem init_task_exit_core {s s' : Runtime} {res : jl_value_t} {ev : Event}
    (h : init_task_exit s res = some (s', ev)) :
    ∃ c cont ct, s.tasks[s.jl_current_task]? = some c ∧ c.done = false ∧
      exit_loop (s.tasks.set s.jl_current_task { c with done := true, result := res })
        s.tasks.length c.on_exit = some cont ∧
      (s.tasks.set s.jl_current_task { c with done := true, result := res })[cont]? = some ct ∧
      ct.done = false ∧
      s'.tasks = s.tasks.set s.jl_current_task
        { c with done := true, result := res, ctx := .switchto .init_task } ∧
      s'.jl_current_task = cont ∧ s'.jl_root_task = s.jl_root_task ∧
      s'.jl_exception_in_transit = s.jl_exception_in_transit := by
  simp only [init_task_exit] at h
  split at h
  · cases h
  · rename_i s1 hs1
    obtain ⟨c, hc, hcd, rfl⟩ := finish_task_core hs1
    simp only at h
    have hlen := lt_length_of_getElem? hc
    rw [List.getElem?_set_self hlen] at h
    simp only [List.length_set] at h
    split at h
    · cases h
    · rename_i cont hcont
      obtain ⟨ct, hct, hctd⟩ := exit_loop_not_done _ _ _ _ hcont
      have hsw : jl_switchto
          { s with tasks := s.tasks.set s.jl_current_task { c with done := true, result := res } }
          cont res .init_task = some (s', ev) := by
        split at h
        · cases h
        · exact h
      simp only [jl_switchto] at hsw
      obtain ⟨tt, htt, hcase⟩ := switchto_core hsw
      simp only at htt hcase
      rw [hct] at htt
      cases htt
      rcases hcase with ⟨hd, -⟩ | ⟨-, cur, hcur, ht, hc', hr⟩
      · rw [hctd] at hd; cases hd
      · rw [List.getElem?_set_self hlen] at hcur
        cases hcur
        simp only [List.set_set] at ht
        obtain ⟨-, -, -, -, -, -, hex⟩ := ctx_switch_core (by
          simp only [switchto, hct, hctd] at hsw
          exact hsw)
        exact ⟨c, cont, ct, hc, hcd, hcont, hct, hctd, ht, hc', hr, hex⟩

theorem TaskInv.init_task_exit {s s' : Runtime} (hs : TaskInv s) {res : jl_value_t}
    {ev : Event} (hroot : s.jl_current_task ≠ s.jl_root_task)
    (h : init_task_exit s res = some (s', ev)) : TaskInv s' := by
  obtain ⟨c, cont, ct, hc, hcd, -, hct, hctd, ht, hcur, hr, -⟩ := init_task_exit_core h
  rw [hs.root_zero] at hroot
  refine TaskInv.congr (hs.set s.jl_current_task cont c
    { c with done := true, result := res, ctx := .switchto .init_task } .NULL 0 .NULL hc rfl
    (hs.eh_lt _ c hc) (fun h0 => absurd h0 hroot) (fun _ => Or.inr rfl) ?_ ?_
    (fun _ => rfl) (Or.inr rfl) (fun _ => Or.inl (Or.inr ⟨.init_task, rfl⟩))) ht hcur hr
  · intro heq
    exfalso
    rw [heq, List.getElem?_set_self (lt_length_of_getElem? hc)] at hct
    cases hct
    cases hctd
  · intro hne
    rw [List.getElem?_set_ne (fun e => hne e.symm)] at hct
    exact ⟨ct, hct, hctd⟩

theorem getElem?_append_cases {α : Type} (l : List α) (j : Nat) (a b : α)
    (h : (l ++ [a])[j]? = some b) : l[j]? = some b ∨ (j = l.length ∧ b = a) := by
  by_cases hj : j < l.length
  · rw [List.getElem?_append_left hj] at h
    exact Or.inl h
  · rw [List.getElem?_append_right (by omega)] at h
    right
    have hlt := lt_length_of_getElem? h
    simp only [List.length_singleton] at hlt
    have : j = l.length := by omega
    subst this
    simp at h
    exact ⟨rfl, h.symm⟩

theorem TaskInv.append {s : Runtime} (hs : TaskInv s) (obj : jl_task_t)
    (a : jl_value_t) (n : Nat) (e : jl_value_t)
    (h1 : obj.on_exit = s.jl_current_task)
    (h2 : obj.state.eh_task < s.tasks.length)
    (h3 : obj.done = false)
    (h4 : ¬ obj.ctx.terminal) :
    TaskInv
      { tasks := s.tasks ++ [obj], jl_current_task := s.jl_current_task,
        jl_root_task := s.jl_root_task,
        task_arg_in_transit := a, n_args_in_transit := n, jl_exception_in_transit := e } := by
  have hcl := hs.cur_lt
  have old : ∀ (i : Nat) (t : jl_task_t), i < s.tasks.length →
      (s.tasks ++ [obj])[i]? = some t → s.tasks[i]? = some t := by
    intro i t hi ht
    rwa [List.getElem?_append_left hi] at ht
  constructor
  · exact hs.root_zero
  · show s.jl_current_task < (s.tasks ++ [obj]).length
    simp only [List.length_append, List.length_singleton]
    omega
  · intro j t ht
    rcases getElem?_append_cases _ _ _ _ ht with h | ⟨rfl, rfl⟩
    · exact hs.on_exit_lt _ _ h
    · left; rw [h1]; exact hcl
  · intro j t ht
    show _ < (s.tasks ++ [obj]).length
    simp only [List.length_append, List.length_singleton]
    rcases getElem?_append_cases _ _ _ _ ht with h | ⟨rfl, rfl⟩
    · have := hs.eh_lt _ _ h; omega
    · omega
  · intro t ht
    exact hs.root_eh t (old 0 t (by omega) ht)
  · intro t ht
    exact hs.cur_not_done t (old _ t hcl ht)
  · intro t ht
    exact hs.root_not_done t (old 0 t (by omega) ht)
  · intro j t ht hd
    rcases getElem?_append_cases _ _ _ _ ht with h | ⟨rfl, rfl⟩
    · exact hs.done_ctx _ _ h hd
    · rw [h3] at hd; cases hd
  · intro j t ht hd
    rcases getElem?_append_cases _ _ _ _ ht with h | ⟨rfl, rfl⟩
    · exact hs.term_done _ _ h hd
    · exact absurd hd h4
  · intro j u p hu hp
    rcases getElem?_append_cases _ _ _ _ hu with h | ⟨rfl, rfl⟩
    · have hlt : u.on_exit < s.tasks.length := by
        have := lt_length_of_getElem? h
        rcases hs.on_exit_lt _ _ h with h' | ⟨-, h'⟩ <;> omega
      exact hs.exit_ctx j u p h (old _ p hlt hp)
    · exact Or.inl h1

theorem init_task_some {m : Machine} {guard : Nat} {t t' : jl_task_t}
    (h : init_task m guard t = some t') :
    t' = { t with ctx := .init_task } ∧ ¬ copy_hits_guard m guard t := by
  unfold init_task at h
  split at h
  · cases h
  · rename_i hn
    cases h
    exact ⟨rfl, hn⟩

theorem jl_new_task_core {m : Machine} {host : Host} {s s' : Runtime} {start : jl_value_t}
    {ssize : Nat} {ev : Event} (h : jl_new_task m host s start ssize = some (s', ev)) :
    ∃ c obj, s.tasks[s.jl_current_task]? = some c ∧ obj.on_exit = s.jl_current_task ∧
      obj.done = false ∧ obj.state.eh_task = c.state.eh_task ∧ obj.state.eh_ctx = none ∧
      ¬ obj.ctx.terminal ∧
      ((s' = { s with tasks := s.tasks ++ [obj] } ∧ ev = .returns (.task s.tasks.length)) ∨
        ∃ msg, jl_error { s with tasks := s.tasks ++ [obj] } msg = some (s', ev)) := by
  simp only [jl_new_task] at h
  split at h
  · cases h
  · rename_i c hc
    split at h
    · refine ⟨c, _, hc, ?_, ?_, ?_, ?_, ?_, Or.inr ⟨_, h⟩⟩
      iterate 4 rfl
      rintro (h | h) <;> cases h
    · split at h
      · cases h
      · rename_i obj hobj
        obtain ⟨rfl, -⟩ := init_task_some hobj
        cases h
        refine ⟨c, _, hc, ?_, ?_, ?_, ?_, ?_, Or.inl ⟨rfl, rfl⟩⟩
        iterate 4 rfl
        rintro (h | h) <;> cases h

theorem TaskInv.jl_new_task {m : Machine} {host : Host} {s s' : Runtime} (hs : TaskInv s)
    {start : jl_value_t} {ssize : Nat} {ev : Event}
    (h : jl_new_task m host s start ssize = some (s', ev)) : TaskInv s' := by
  obtain ⟨c, obj, hc, h1, h2, h3, -, h4, hcase⟩ := jl_new_task_core h
  have hs1 := hs.append obj s.task_arg_in_transit s.n_args_in_transit s.jl_exception_in_transit
    h1 (by rw [h3]; exact hs.eh_lt _ c hc) h2 h4
  rcases hcase with ⟨rfl, -⟩ | ⟨msg, herr⟩
  · exact hs1
  · exact hs1.jl_error herr

theorem TaskInv.jl_f_task {m : Machine} {host : Host} {s s' : Runtime} (hs : TaskInv s)
    {args : List jl_value_t} {ev : Event}
    (h : jl_f_task m host s args = some (s', ev)) : TaskInv s' := by
  unfold JlTask.jl_f_task at h
  split at h
  · exact hs.jl_error h
  · exact hs.jl_new_task h
  · simp only at h
    split at h
    · exact hs.jl_error h
    · exact hs.jl_new_task h
  · exact hs.jl_error h
  · exact hs.jl_error h
  · exact hs.jl_error h
  · exact hs.jl_error h

theorem TaskInv.jl_f_yieldto {s s' : Runtime} (hs : TaskInv s)
    {args : List jl_value_t} {ev : Event}
    (h : jl_f_yieldto s args = some (s', ev)) : TaskInv s' := by
  unfold JlTask.jl_f_yieldto at h
  split at h
  · exact hs.jl_error h
  · simp only at h
    rename_i t rest
    split at h
    · exact (hs.slots _ _ _).switchto (by decide) h
    · exact (hs.slots _ _ _).switchto (by decide) h
    · exact (hs.slots _ _ _).switchto (by decide) h
  · exact hs.jl_error h

theorem TaskInv.enter_handler {s s' : Runtime} (hs : TaskInv s) {hb : Nat} {ev : Event}
    (h : enter_handler s hb = some (s', ev)) : TaskInv s' := by
  simp only [JlTask.enter_handler] at h
  split at h
  · cases h
  · rename_i c hc
    cases h
    have hcd := hs.cur_not_done c hc
    exact hs.set s.jl_current_task s.jl_current_task c _ _ _ _ hc rfl hs.cur_lt
      (fun h0 => ⟨h0, hcd⟩) (fun hd => by rw [show c.done = false from hcd] at hd; cases hd)
      (fun _ => hcd) (fun hne => absurd rfl hne)
      (fun h => by rw [hs.term_done _ c hc h] at hcd; cases hcd) (Or.inl rfl)
      (fun hne => absurd rfl hne)

theorem TaskInv.step {m : Machine} {s s' : Runtime} (hs : TaskInv s) {op : Op} {ev : Event}
    (h : step m s op = some (s', ev)) : TaskInv s' := by
  cases op with
  | Task host args => exact hs.jl_f_task h
  | new_task host start ssize => exact hs.jl_new_task h
  | yieldto args => exact hs.jl_f_yieldto h
  | switchto t arg => exact (hs.slots _ _ _).switchto (by decide) h
  | raise e => exact hs.jl_raise h
  | body_returns res =>
    simp only [JlTask.step] at h
    split at h
    · cases h
    · rename_i hne
      exact hs.init_task_exit hne h
  | current_task args =>
    simp only [JlTask.step, jl_f_current_task] at h
    split at h
    · cases h; exact hs
    · exact hs.jl_error h
  | task_done args =>
    simp only [JlTask.step, jl_f_taskdone] at h
    split at h
    · exact hs.jl_error h
    · split at h
      · cases h
      · cases h; exact hs
    · exact hs.jl_error h
    · exact hs.jl_error h
  | enter_handler hb => exact hs.enter_handler h

theorem TaskInv.init (stack ssize : Nat) : TaskInv (jl_init_tasks stack ssize) := by
  constructor
  · rfl
  · simp [jl_init_tasks]
  · intro i t ht
    have := lt_length_of_getElem? ht
    simp only [jl_init_tasks, List.length_singleton] at this
    have hi : i = 0 := by omega
    subst hi
    simp [jl_init_tasks] at ht
    subst ht
    exact Or.inr ⟨rfl, rfl⟩
  · intro i t ht
    have := lt_length_of_getElem? ht
    simp only [jl_init_tasks, List.length_singleton] at this
    have hi : i = 0 := by omega
    subst hi
    simp [jl_init_tasks] at ht
    subst ht
    simp [jl_init_tasks]
  · intro t ht
    simp [jl_init_tasks] at ht
    subst ht; rfl
  · intro t ht
    simp [jl_init_tasks] at ht
    subst ht; rfl
  · intro t ht
    simp [jl_init_tasks] at ht
    subst ht; rfl
  · intro i t ht hd
    have := lt_length_of_getElem? ht
    simp only [jl_init_tasks, List.length_singleton] at this
    have hi : i = 0 := by omega
    subst hi
    simp [jl_init_tasks] at ht
    subst ht
    cases hd
  · intro i t ht hd
    have := lt_length_of_getElem? ht
    simp only [jl_init_tasks, List.length_singleton] at this
    have hi : i = 0 := by omega
    subst hi
    simp [jl_init_tasks] at ht
    subst ht
    rcases hd with h | h <;> cases h
  · intro j u p hu hp
    have := lt_length_of_getElem? hu
    simp only [jl_init_tasks, List.length_singleton] at this
    have hi : j = 0 := by omega
    subst hi
    simp [jl_init_tasks] at hu
    subst hu
    exact Or.inl rfl

theorem Reachable.inv {m : Machine} {s : Runtime} (h : Reachable m s) : TaskInv s := by
  induction h with
  | init stack ssize => exact TaskInv.init stack ssize
  | step op _ hstep ih => exact ih.step hstep

/-! ### Transfer, raise and the life cycle of tasks -/

theorem jl_f_yieldto_task (s : Runtime) (t : Nat) (rest : List jl_value_t) :
    jl_f_yieldto s (.task t :: rest)
      = switchto { s with n_args_in_transit := rest.length,
                          task_arg_in_transit := transit_value rest } t .jl_f_yieldto := by
  unfold jl_f_yieldto
  rcases rest with _ | ⟨a, _ | ⟨b, r⟩⟩ <;> rfl

/-- C2: for every task `t` that is done and every list of extra arguments,
`yieldto(t, extra...)` returns `t->result` at once: no transfer, the current
task, the root task and every task object (so every field of `t`) are as
before, and the transit slot holds `jl_null`. -/
theorem yieldto_done_returns_result (s : Runtime) (t : Nat) (tt : jl_task_t)
    (extra : List jl_value_t) (ht : s.tasks[t]? = some tt) (hd : tt.done = true) :
    ∃ s', jl_f_yieldto s (.task t :: extra) = some (s', .returns tt.result) ∧
      s'.jl_current_task = s.jl_current_task ∧ s'.tasks = s.tasks ∧
      s'.tasks[t]? = some tt ∧ s'.jl_root_task = s.jl_root_task ∧
      s'.task_arg_in_transit = .jl_null := by
  rw [jl_f_yieldto_task]
  simp only [switchto, ht, hd, if_true]
  exact ⟨_, rfl, rfl, rfl, ht, rfl, rfl⟩

/-- C1: in every reachable state, for every task `A` other than the current
task whose saved context is the one taken inside `switchto` called from
`yieldto`, the call `yieldto(A, extra...)` by the current task makes `A`'s
`yieldto` return `jl_null` for no extra argument, the argument for one, the
tuple of the extra arguments for two or more; `n_args_in_transit` is the number
of extra arguments, `A` is the current task and the transit slot holds
`jl_null`. -/
theorem yieldto_delivers_arguments (m : Machine) (s : Runtime) (hr : Reachable m s)
    (A : Nat) (a : jl_task_t) (extra : List jl_value_t)
    (hA : s.tasks[A]? = some a) (hctx : a.ctx = .switchto .jl_f_yieldto)
    (hne : A ≠ s.jl_current_task) :
    ∃ s', jl_f_yieldto s (.task A :: extra)
        = some (s', .resumes .jl_f_yieldto
            (match extra with
             | [] => .jl_null
             | [v] => v
             | _ :: _ :: _ => .tuple extra)) ∧
      s'.n_args_in_transit = extra.length ∧
      s'.jl_current_task = A ∧
      s'.task_arg_in_transit = .jl_null := by
  have hs := hr.inv
  have had : a.done = false := by
    cases hd : a.done with
    | false => rfl
    | true =>
      rcases hs.done_ctx A a hA hd with h | h <;> rw [hctx] at h <;> cases h
  obtain ⟨c, hc⟩ : ∃ c, s.tasks[s.jl_current_task]? = some c :=
    ⟨_, List.getElem?_eq_getElem hs.cur_lt⟩
  rw [jl_f_yieldto_task]
  simp only [switchto, hA, had, ctx_switch, hc, longjmp]
  rw [List.getElem?_set_ne (fun e => hne e.symm)]
  simp only [hA, hctx, resume, Bool.false_eq_true, if_false]
  rcases extra with _ | ⟨a, _ | ⟨b, r⟩⟩ <;> exact ⟨_, rfl, rfl, rfl, rfl⟩

theorem jl_raise_spec (s : Runtime) (e : jl_value_t) (cur h : jl_task_t)
    (hcur : s.tasks[s.jl_current_task]? = some cur)
    (hh : s.tasks[cur.state.eh_task]? = some h) :
    (s.jl_current_task = cur.state.eh_task →
      ∀ hc, h.state.eh_ctx = some hc →
        ∃ s', jl_raise s e = some (s', .handler hc) ∧
          s'.jl_current_task = s.jl_current_task ∧
          s'.jl_exception_in_transit = e ∧
          (∃ h', s'.tasks[cur.state.eh_task]? = some h' ∧ h'.state.err = true) ∧
          (∀ (i : Nat) (t : jl_task_t), s.tasks[i]? = some t →
            ∃ t', s'.tasks[i]? = some t' ∧ t'.done = t.done ∧ t'.result = t.result)) ∧
    (s.jl_current_task ≠ cur.state.eh_task → cur.done = false →
      ∀ (target : Nat) (tg : jl_task_t) (hc : Nat),
        target = (if h.done = true ∨ h.state.eh_ctx = none then s.jl_root_task
                  else cur.state.eh_task) →
        s.tasks[target]? = some tg → tg.state.eh_ctx = some hc →
        ∃ s', jl_raise s e = some (s', .handler hc) ∧
          s'.jl_current_task = target ∧
          s'.jl_exception_in_transit = e ∧
          (∃ h', s'.tasks[cur.state.eh_task]? = some h' ∧ h'.state.err = true) ∧
          (∃ c', s'.tasks[s.jl_current_task]? = some c' ∧ c'.done = true ∧ c'.result = e) ∧
          (∀ (i : Nat) (t : jl_task_t), i ≠ s.jl_current_task → s.tasks[i]? = some t →
            ∃ t', s'.tasks[i]? = some t' ∧ t'.done = t.done ∧ t'.result = t.result)) := by
  have hlc := lt_length_of_getElem? hcur
  have hlh := lt_length_of_getElem? hh
  constructor
  · intro heq hc hctx
    refine ⟨{ s with
      tasks := s.tasks.set cur.state.eh_task { h with state := { h.state with err := true } }
      jl_exception_in_transit := e }, ?_, rfl, rfl, ?_, ?_⟩
    · simp only [jl_raise, hcur, hh]
      rw [if_pos heq]
      simp only [hctx, Option.map, longjmp]
    · exact ⟨_, List.getElem?_set_self hlh, rfl⟩
    · intro i t ht
      by_cases hi : i = cur.state.eh_task
      · subst hi
        rw [hh] at ht; cases ht
        exact ⟨_, List.getElem?_set_self hlh, rfl, rfl⟩
      · exact ⟨t, by simp only [List.getElem?_set_ne (fun e => hi e.symm)]; exact ht, rfl, rfl⟩
  · intro hne hnd target tg hc htarget htg hctx
    subst htarget
    have hfin : finish_task
        { s with
          tasks := s.tasks.set cur.state.eh_task { h with state := { h.state with err := true } }
          jl_exception_in_transit := e } s.jl_current_task e
        = some { s with
          tasks := (s.tasks.set cur.state.eh_task
            { h with state := { h.state with err := true } }).set s.jl_current_task
              { cur with done := true, result := e }
          jl_exception_in_transit := e } := by
      simp only [finish_task]
      rw [List.getElem?_set_ne (fun e => hne e.symm), hcur]
      simp only [hnd, Bool.false_eq_true, if_false]
    refine ⟨{ s with
      tasks := (s.tasks.set cur.state.eh_task
        { h with state := { h.state with err := true } }).set s.jl_current_task
          { cur with done := true, result := e, ctx := .jl_raise }
      jl_current_task := _
      jl_exception_in_transit := e }, ?_, rfl, rfl, ?_, ?_, ?_⟩
    · have hE : (if (h.done || h.state.eh_ctx.isNone) = true then s.jl_root_task
          else cur.state.eh_task)
          = (if h.done = true ∨ h.state.eh_ctx = none then s.jl_root_task
              else cur.state.eh_task) := by
        by_cases h1 : h.done = true <;> by_cases h2 : h.state.eh_ctx = none <;> simp [h1, h2]
      obtain ⟨tg2, htg2, hctx2⟩ : ∃ tg2, ((s.tasks.set cur.state.eh_task
          { h with state := { h.state with err := true } }).set s.jl_current_task
            { cur with done := true, result := e })[if h.done = true ∨ h.state.eh_ctx = none
              then s.jl_root_task else cur.state.eh_task]? = some tg2 ∧
          tg2.state.eh_ctx = some hc := by
        generalize (if h.done = true ∨ h.state.eh_ctx = none then s.jl_root_task
          else cur.state.eh_task) = E at htg
        by_cases h1 : E = s.jl_current_task
        · subst h1
          rw [hcur] at htg; cases htg
          exact ⟨_, List.getElem?_set_self (by rw [List.length_set]; exact hlc), hctx⟩
        · rw [List.getElem?_set_ne (fun e => h1 e.symm)]
          by_cases h2 : E = cur.state.eh_task
          · subst h2
            rw [hh] at htg; cases htg
            exact ⟨_, List.getElem?_set_self hlh, hctx⟩
          · rw [List.getElem?_set_ne (fun e => h2 e.symm)]
            exact ⟨tg, htg, hctx⟩
      simp only [jl_raise, hcur, hh]
      rw [if_neg hne]
      simp only [hfin, hE, htg2, ctx_switch]
      rw [List.getElem?_set_self (by rw [List.length_set]; exact hlc)]
      simp only [hctx2, Option.map, longjmp, List.set_set]
      rfl
    · by_cases h1 : cur.state.eh_task = s.jl_current_task
      · exact absurd h1.symm hne
      · refine ⟨{ h with state := { h.state with err := true } }, ?_, rfl⟩
        show ((s.tasks.set cur.state.eh_task _).set s.jl_current_task _)[cur.state.eh_task]? = _
        rw [List.getElem?_set_ne hne]
        exact List.getElem?_set_self hlh
    · exact ⟨_, List.getElem?_set_self (by rw [List.length_set]; exact hlc), rfl, rfl⟩
    · intro i t hi ht
      show ∃ t', ((s.tasks.set cur.state.eh_task _).set s.jl_current_task _)[i]? = some t' ∧ _
      rw [List.getElem?_set_ne (fun e => hi e.symm)]
      by_cases h1 : i = cur.state.eh_task
      · subst h1
        rw [hh] at ht; cases ht
        exact ⟨_, List.getElem?_set_self hlh, rfl, rfl⟩
      · exact ⟨t, by rw [List.getElem?_set_ne (fun e => h1 e.symm)]; exact ht, rfl, rfl⟩

/-- C3: `jl_raise(e)` in a state whose current task `cur` and its handler task
`h = cur->state.eh_task` exist. If `h` is the current task and has a handler
context, control lands on it, the current task is unchanged, `h->state.err` is
set, the exception in transit is `e`, and no task changes `done` or `result`.
Otherwise, the current task not being done, control lands on the handler
context of the target, which is `h`, or the root task when `h` is done or has
no handler context; the target is the current task, `h->state.err` is set, the
exception in transit is `e`, the raising task is done with result `e` and no
other task changes `done` or `result`. -/
theorem jl_raise_reaches_handler (s : Runtime) (e : jl_value_t) (cur h : jl_task_t)
    (hcur : s.tasks[s.jl_current_task]? = some cur)
    (hh : s.tasks[cur.state.eh_task]? = some h) :
    (s.jl_current_task = cur.state.eh_task →
      ∀ hc, h.state.eh_ctx = some hc →
        ∃ s', jl_raise s e = some (s', .handler hc) ∧
          s'.jl_current_task = s.jl_current_task ∧
          s'.jl_exception_in_transit = e ∧
          (∃ h', s'.tasks[cur.state.eh_task]? = some h' ∧ h'.state.err = true) ∧
          (∀ (i : Nat) (t : jl_task_t), s.tasks[i]? = some t →
            ∃ t', s'.tasks[i]? = some t' ∧ t'.done = t.done ∧ t'.result = t.result)) ∧
    (s.jl_current_task ≠ cur.state.eh_task → cur.done = false →
      ∀ (target : Nat) (tg : jl_task_t) (hc : Nat),
        target = (if h.done = true ∨ h.state.eh_ctx = none then s.jl_root_task
                  else cur.state.eh_task) →
        s.tasks[target]? = some tg → tg.state.eh_ctx = some hc →
        ∃ s', jl_raise s e = some (s', .handler hc) ∧
          s'.jl_current_task = target ∧
          s'.jl_exception_in_transit = e ∧
          (∃ h', s'.tasks[cur.state.eh_task]? = some h' ∧ h'.state.err = true) ∧
          (∃ c', s'.tasks[s.jl_current_task]? = some c' ∧ c'.done = true ∧ c'.result = e) ∧
          (∀ (i : Nat) (t : jl_task_t), i ≠ s.jl_current_task → s.tasks[i]? = some t →
            ∃ t', s'.tasks[i]? = some t' ∧ t'.done = t.done ∧ t'.result = t.result)) :=
  jl_raise_spec s e cur h hcur hh

theorem DoneKept.refl (ts : List jl_task_t) : DoneKept ts ts :=
  fun _ tt ht hd => ⟨tt, ht, hd, rfl⟩

theorem DoneKept.of_eq {ts ts' : List jl_task_t} (h : ts' = ts) : DoneKept ts ts' :=
  h ▸ DoneKept.refl ts

theorem DoneKept.trans {a b c : List jl_task_t} (h1 : DoneKept a b) (h2 : DoneKept b c) :
    DoneKept a c := by
  intro t tt ht hd
  obtain ⟨t1, h11, h12, h13⟩ := h1 t tt ht hd
  obtain ⟨t2, h21, h22, h23⟩ := h2 t t1 h11 h12
  exact ⟨t2, h21, h22, h23.trans h13⟩

theorem DoneKept.update {ts : List jl_task_t} {i : Nat} {x : jl_task_t} (x' : jl_task_t)
    (hx : ts[i]? = some x) (h : x.done = true → x'.done = true ∧ x'.result = x.result) :
    DoneKept ts (ts.set i x') := by
  intro t tt ht hd
  by_cases hi : t = i
  · subst hi
    rw [hx] at ht; cases ht
    exact ⟨x', List.getElem?_set_self (lt_length_of_getElem? hx), h hd⟩
  · exact ⟨tt, by rw [List.getElem?_set_ne (fun e => hi e.symm)]; exact ht, hd, rfl⟩

theorem DoneKept.push (ts : List jl_task_t) (obj : jl_task_t) :
    DoneKept ts (ts ++ [obj]) := by
  intro t tt ht hd
  exact ⟨tt, by rw [List.getElem?_append_left (lt_length_of_getElem? ht)]; exact ht, hd, rfl⟩

theorem switchto_done_kept {s s' : Runtime} {t : Nat} {caller : Caller} {ev : Event}
    (h : switchto s t caller = some (s', ev)) : DoneKept s.tasks s'.tasks := by
  obtain ⟨tt, -, hcase⟩ := switchto_core h
  rcases hcase with ⟨-, h1, -⟩ | ⟨-, cur, hcur, h1, -⟩
  · exact DoneKept.of_eq h1
  · rw [h1]
    exact DoneKept.update _ hcur (fun hd => ⟨hd, rfl⟩)

theorem jl_raise_done_kept {s s' : Runtime} {e : jl_value_t} {ev : Event}
    (h : jl_raise s e = some (s', ev)) : DoneKept s.tasks s'.tasks := by
  obtain ⟨c, eht, hc, heht, -, -, -, -, hcase⟩ := jl_raise_core h
  have h1 : DoneKept s.tasks (s.tasks.set c.state.eh_task
      { eht with state := { eht.state with err := true } }) :=
    DoneKept.update _ heht (fun hd => ⟨hd, rfl⟩)
  rcases hcase with ⟨-, ht, -⟩ | ⟨hne, hcd, ht, -⟩
  · rw [ht]; exact h1
  · rw [ht]
    refine h1.trans (DoneKept.update (x := c) _ ?_ (fun hd => ?_))
    · rw [List.getElem?_set_ne (fun e => hne e.symm)]; exact hc
    · rw [hcd] at hd; cases hd

theorem init_task_exit_done_kept {s s' : Runtime} {res : jl_value_t} {ev : Event}
    (h : init_task_exit s res = some (s', ev)) : DoneKept s.tasks s'.tasks := by
  obtain ⟨c, cont, ct, hc, hcd, -, -, -, ht, -⟩ := init_task_exit_core h
  rw [ht]
  exact DoneKept.update _ hc (fun hd => by rw [hcd] at hd; cases hd)

theorem jl_new_task_done_kept {m : Machine} {host : Host} {s s' : Runtime}
    {start : jl_value_t} {ssize : Nat} {ev : Event}
    (h : jl_new_task m host s start ssize = some (s', ev)) : DoneKept s.tasks s'.tasks := by
  obtain ⟨c, obj, -, -, -, -, -, -, hcase⟩ := jl_new_task_core h
  rcases hcase with ⟨rfl, -⟩ | ⟨msg, herr⟩
  · exact DoneKept.push _ _
  · exact (DoneKept.push _ obj).trans (jl_raise_done_kept herr)

theorem step_done_kept {m : Machine} {s s' : Runtime} {op : Op} {ev : Event}
    (h : step m s op = some (s', ev)) : DoneKept s.tasks s'.tasks := by
  cases op with
  | Task host args =>
    simp only [step] at h
    unfold jl_f_task at h
    split at h
    · exact jl_raise_done_kept h
    · exact jl_new_task_done_kept h
    · simp only at h
      split at h
      · exact jl_raise_done_kept h
      · exact jl_new_task_done_kept h
    · exact jl_raise_done_kept h
    · exact jl_raise_done_kept h
    · exact jl_raise_done_kept h
    · exact jl_raise_done_kept h
  | new_task host start ssize => exact jl_new_task_done_kept h
  | yieldto args =>
    simp only [step] at h
    unfold jl_f_yieldto at h
    split at h
    · exact jl_raise_done_kept h
    · simp only at h
      split at h <;> exact (switchto_done_kept h : DoneKept _ s'.tasks)
    · exact jl_raise_done_kept h
  | switchto t arg => exact (switchto_done_kept h : DoneKept _ s'.tasks)
  | raise e => exact jl_raise_done_kept h
  | body_returns res =>
    simp only [step] at h
    split at h
    · cases h
    · exact init_task_exit_done_kept h
  | current_task args =>
    simp only [step, jl_f_current_task] at h
    split at h
    · cases h; exact DoneKept.refl _
    · exact jl_raise_done_kept h
  | task_done args =>
    simp only [step, jl_f_taskdone] at h
    split at h
    · exact jl_raise_done_kept h
    · split at h
      · cases h
      · cases h; exact DoneKept.refl _
    · exact jl_raise_done_kept h
    · exact jl_raise_done_kept h
  | enter_handler hb =>
    simp only [step, enter_handler] at h
    split at h
    · cases h
    · rename_i c hc
      cases h
      exact DoneKept.update _ hc (fun hd => ⟨hd, rfl⟩)

theorem run_reachable {m : Machine} :
    ∀ (ops : List Op) {s s' : Runtime}, Reachable m s → run m s ops = some s' →
      Reachable m s' := by
  intro ops
  induction ops with
  | nil =>
    intro s s' hr h
    simp only [run] at h
    cases h
    exact hr
  | cons op ops ih =>
    intro s s' hr h
    simp only [run] at h
    split at h
    · cases h
    · rename_i s1 ev hstep
      exact ih (Reachable.step op hr hstep) h

theorem run_done_kept {m : Machine} :
    ∀ (ops : List Op) {s s' : Runtime}, run m s ops = some s' → DoneKept s.tasks s'.tasks := by
  intro ops
  induction ops with
  | nil =>
    intro s s' h
    simp only [run] at h
    cases h
    exact DoneKept.refl _
  | cons op ops ih =>
    intro s s' h
    simp only [run] at h
    split at h
    · cases h
    · rename_i s1 ev hstep
      exact (step_done_kept hstep).trans (ih h)

theorem reachable_done_not_current {m : Machine} {s : Runtime} (hr : Reachable m s)
    {t : Nat} {tt : jl_task_t} (ht : s.tasks[t]? = some tt) (hd : tt.done = true) :
    s.jl_current_task ≠ t := by
  intro h
  subst h
  rw [hr.inv.cur_not_done tt ht] at hd
  cases hd

/-- C6: in a reachable state let `t` be done. After every operation of the task
layer `t` is still done, with the same result, and is not the current task;
and after every sequence of operations the same holds and `task_done(t)`
returns `true`. -/
theorem done_is_monotonic_and_terminal (m : Machine) (s : Runtime) (hr : Reachable m s)
    (t : Nat) (tt : jl_task_t) (ht : s.tasks[t]? = some tt) (hd : tt.done = true) :
    (∀ (op : Op) (s' : Runtime) (ev : Event), step m s op = some (s', ev) →
      ∃ tt', s'.tasks[t]? = some tt' ∧ tt'.done = true ∧ tt'.result = tt.result ∧
        s'.jl_current_task ≠ t) ∧
    (∀ (ops : List Op) (s' : Runtime), run m s ops = some s' →
      ∃ tt', s'.tasks[t]? = some tt' ∧ tt'.done = true ∧ tt'.result = tt.result ∧
        s'.jl_current_task ≠ t ∧
        jl_f_taskdone s' [.task t] = some (s', .returns .jl_true)) := by
  constructor
  · intro op s' ev hstep
    obtain ⟨tt', h1, h2, h3⟩ := step_done_kept hstep t tt ht hd
    exact ⟨tt', h1, h2, h3, reachable_done_not_current (Reachable.step op hr hstep) h1 h2⟩
  · intro ops s' hrun
    obtain ⟨tt', h1, h2, h3⟩ := run_done_kept ops hrun t tt ht hd
    refine ⟨tt', h1, h2, h3, reachable_done_not_current (run_reachable ops hr hrun) h1 h2, ?_⟩
    simp only [jl_f_taskdone, h1, h2, if_true]

/-- C7: in every state reachable from `jl_init_tasks` the root task exists and
is not done. -/
theorem root_task_never_finishes (m : Machine) (s : Runtime) (hr : Reachable m s) :
    ∃ r, s.tasks[s.jl_root_task]? = some r ∧ r.done = false := by
  have hs := hr.inv
  rw [hs.root_zero]
  obtain ⟨r, h⟩ : ∃ r, s.tasks[0]? = some r :=
    ⟨_, List.getElem?_eq_getElem (lt_of_le_of_lt (Nat.zero_le _) hs.cur_lt)⟩
  exact ⟨r, h, hs.root_not_done r h⟩

theorem on_exit_iter_reaches_root (ts : List jl_task_t)
    (h1 : ∀ (i : Nat) (t : jl_task_t), ts[i]? = some t → t.on_exit < i ∨ (i = 0 ∧ t.on_exit = 0)) :
    ∀ t, t < ts.length → ∃ k, k ≤ t ∧ on_exit_iter ts k t = some 0 := by
  intro t
  induction t using Nat.strong_induction_on with
  | _ t ih =>
    intro ht
    by_cases h0 : t = 0
    · subst h0
      exact ⟨0, le_refl _, by simp [on_exit_iter, ht]⟩
    · obtain ⟨tt, htt⟩ : ∃ tt, ts[t]? = some tt := ⟨_, List.getElem?_eq_getElem ht⟩
      rcases h1 t tt htt with h | ⟨h, -⟩
      · obtain ⟨k, hk, hit⟩ := ih tt.on_exit h (by omega)
        refine ⟨k + 1, by omega, ?_⟩
        simp only [on_exit_iter, htt]
        exact hit
      · exact absurd h h0

theorem on_exit_iter_le (ts : List jl_task_t)
    (h1 : ∀ (i : Nat) (t : jl_task_t), ts[i]? = some t → t.on_exit < i ∨ (i = 0 ∧ t.on_exit = 0)) :
    ∀ (k t u : Nat), on_exit_iter ts k t = some u → u ≤ t ∧ (0 < k → t ≠ 0 → u < t) := by
  intro k
  induction k with
  | zero =>
    intro t u h
    simp only [on_exit_iter] at h
    split at h
    · cases h; exact ⟨le_refl _, fun hk => absurd hk (lt_irrefl 0)⟩
    · cases h
  | succ k ih =>
    intro t u h
    simp only [on_exit_iter] at h
    split at h
    · cases h
    · rename_i tt htt
      obtain ⟨hle, -⟩ := ih _ _ h
      rcases h1 t tt htt with h2 | ⟨h2, h3⟩
      · exact ⟨by omega, fun _ _ => by omega⟩
      · exact ⟨by omega, fun _ h0 => absurd h2 h0⟩

theorem exit_loop_mono (ts : List jl_task_t) :
    ∀ (fuel c cont : Nat), exit_loop ts fuel c = some cont →
      ∀ fuel', fuel ≤ fuel' → exit_loop ts fuel' c = some cont := by
  intro fuel
  induction fuel with
  | zero => intro c cont h; simp [exit_loop] at h
  | succ fuel ih =>
    intro c cont h fuel' hle
    obtain ⟨f, rfl⟩ : ∃ f, fuel' = f + 1 := ⟨fuel' - 1, by omega⟩
    simp only [exit_loop] at h ⊢
    split at h
    · cases h
    · rename_i t ht
      split at h
      · rename_i hd
        rw [if_pos hd]
        exact ih _ _ h f (by omega)
      · rename_i hd
        rw [if_neg hd]
        exact h

theorem on_exit_iter_add (ts : List jl_task_t) :
    ∀ (a d c : Nat), on_exit_iter ts (a + d) c
      = (on_exit_iter ts a c).bind (on_exit_iter ts d) := by
  intro a
  induction a with
  | zero =>
    intro d c
    simp only [Nat.zero_add, on_exit_iter]
    by_cases hc : c < ts.length
    · simp [hc]
    · simp only [hc, if_false, Option.none_bind]
      cases d with
      | zero => simp [on_exit_iter, hc]
      | succ d => simp [on_exit_iter, List.getElem?_eq_none (Nat.le_of_not_lt hc)]
  | succ a ih =>
    intro d c
    rw [Nat.succ_add]
    simp only [on_exit_iter]
    cases ts[c]? with
    | none => rfl
    | some tt => exact ih d tt.on_exit

theorem on_exit_iter_lt (ts : List jl_task_t) :
    ∀ (k c u : Nat), on_exit_iter ts k c = some u → u < ts.length := by
  intro k
  induction k with
  | zero =>
    intro c u h
    simp only [on_exit_iter] at h
    split at h
    · cases h; assumption
    · cases h
  | succ k ih =>
    intro c u h
    simp only [on_exit_iter] at h
    split at h
    · cases h
    · exact ih _ _ h

/-- What a result of the exit loop means: `cont` is reached after `j` links, is
not done, and the tasks passed before are done. -/
theorem exit_loop_some_iff (ts : List jl_task_t) :
    ∀ (fuel c cont : Nat), exit_loop ts fuel c = some cont ↔
      ∃ j, j < fuel ∧ on_exit_iter ts j c = some cont ∧
        (∃ t, ts[cont]? = some t ∧ t.done = false) ∧
        ∀ i, i < j → ∃ u t, on_exit_iter ts i c = some u ∧ ts[u]? = some t ∧ t.done = true := by
  intro fuel
  induction fuel with
  | zero =>
    intro c cont
    simp only [exit_loop]
    constructor
    · intro h; cases h
    · rintro ⟨j, hj, -⟩; omega
  | succ fuel ih =>
    intro c cont
    simp only [exit_loop]
    cases hc : ts[c]? with
    | none =>
      simp only []
      constructor
      · intro h; cases h
      · rintro ⟨j, -, hit, -, -⟩
        exfalso
        cases j with
        | zero =>
          simp only [on_exit_iter] at hit
          split at hit
          · rename_i hlt
            rw [List.getElem?_eq_getElem hlt] at hc
            cases hc
          · cases hit
        | succ j => simp [on_exit_iter, hc] at hit
    | some t =>
      have hlt := lt_length_of_getElem? hc
      simp only []
      by_cases hd : t.done = true
      · rw [if_pos hd, ih]
        constructor
        · rintro ⟨j, hj, hit, hnd, hall⟩
          refine ⟨j + 1, by omega, by simpa [on_exit_iter, hc] using hit, hnd, ?_⟩
          intro i hi
          cases i with
          | zero => exact ⟨c, t, by simp [on_exit_iter, hlt], hc, hd⟩
          | succ i =>
            obtain ⟨u, tu, h1, h2, h3⟩ := hall i (by omega)
            exact ⟨u, tu, by simpa [on_exit_iter, hc] using h1, h2, h3⟩
        · rintro ⟨j, hj, hit, hnd, hall⟩
          cases j with
          | zero =>
            exfalso
            simp only [on_exit_iter, hlt, if_true] at hit
            cases hit
            obtain ⟨t', ht', hnd'⟩ := hnd
            rw [hc] at ht'; cases ht'
            rw [hd] at hnd'; cases hnd'
          | succ j =>
            refine ⟨j, by omega, by simpa [on_exit_iter, hc] using hit, hnd, ?_⟩
            intro i hi
            obtain ⟨u, tu, h1, h2, h3⟩ := hall (i + 1) (by omega)
            exact ⟨u, tu, by simpa [on_exit_iter, hc] using h1, h2, h3⟩
      · rw [if_neg hd]
        constructor
        · intro h
          cases h
          exact ⟨0, by omega, by simp [on_exit_iter, hlt], ⟨t, hc, by simpa using hd⟩,
            fun i hi => absurd hi (Nat.not_lt_zero _)⟩
        · rintro ⟨j, hj, hit, hnd, hall⟩
          cases j with
          | zero =>
            simp only [on_exit_iter, hlt, if_true] at hit
            exact hit
          | succ j =>
            exfalso
            obtain ⟨u, tu, h1, h2, h3⟩ := hall 0 (by omega)
            simp only [on_exit_iter, hlt, if_true] at h1
            cases h1
            rw [hc] at h2; cases h2
            exact hd h3

/-- The bound on the tests of the exit loop loses nothing: if the loop has not
ended within as many tests as there are tasks, it never ends. -/
theorem exit_loop_fuel_adequate (ts : List jl_task_t) (c : Nat)
    (h : exit_loop ts ts.length c = none) : ∀ fuel, exit_loop ts fuel c = none := by
  intro fuel
  cases hf : exit_loop ts fuel c with
  | none => rfl
  | some cont =>
    exfalso
    obtain ⟨j, -, hit, ⟨t, ht, hnd⟩, hall⟩ := (exit_loop_some_iff ts fuel c cont).1 hf
    by_cases hj : j < ts.length
    · have := (exit_loop_some_iff ts ts.length c cont).2 ⟨j, hj, hit, ⟨t, ht, hnd⟩, hall⟩
      rw [h] at this
      cases this
    · -- more links than tasks: two of the first `j + 1` tasks agree
      have hmaps : ∀ i ∈ Finset.range (j + 1),
          (on_exit_iter ts i c).getD 0 ∈ Finset.range ts.length := by
        intro i hi
        rw [Finset.mem_range] at hi ⊢
        by_cases hij : i = j
        · subst hij
          rw [hit]
          exact on_exit_iter_lt ts _ _ _ hit
        · obtain ⟨u, tu, h1, -, -⟩ := hall i (by omega)
          rw [h1]
          exact on_exit_iter_lt ts _ _ _ h1
      obtain ⟨a, ha, b, hb, hab, heq⟩ :=
        Finset.exists_ne_map_eq_of_card_lt_of_maps_to
          (by simp only [Finset.card_range]; omega) hmaps
      rw [Finset.mem_range] at ha hb
      -- the earlier of the two is done, and the task reached from it after the
      -- remaining links is `cont`
      have key : ∀ a b, a < b → b < j + 1 →
          (on_exit_iter ts a c).getD 0 = (on_exit_iter ts b c).getD 0 → False := by
        intro a b hab hb heq
        have hsome : ∀ i, i ≤ j → ∃ u, on_exit_iter ts i c = some u := by
          intro i hi
          by_cases hij : i = j
          · subst hij; exact ⟨cont, hit⟩
          · obtain ⟨u, tu, h1, -, -⟩ := hall i (by omega)
            exact ⟨u, h1⟩
        obtain ⟨ua, hua⟩ := hsome a (by omega)
        obtain ⟨ub, hub⟩ := hsome b (by omega)
        rw [hua, hub] at heq
        simp only [Option.getD_some] at heq
        subst heq
        have h1 : on_exit_iter ts (a + (j - b)) c = on_exit_iter ts (j - b) ua := by
          rw [on_exit_iter_add, hua]; rfl
        have h2 : on_exit_iter ts (b + (j - b)) c = on_exit_iter ts (j - b) ua := by
          rw [on_exit_iter_add, hub]; rfl
        have h3 : b + (j - b) = j := by omega
        rw [h3, hit] at h2
        rw [← h2] at h1
        obtain ⟨u, tu, h4, h5, h6⟩ := hall (a + (j - b)) (by omega)
        rw [h4] at h1
        cases h1
        rw [ht] at h5
        cases h5
        rw [hnd] at h6
        cases h6
      rcases Nat.lt_or_gt_of_ne hab with hlt | hgt
      · exact key a b hlt hb heq
      · exact key b a hgt ha heq.symm

/-- The task the exit loop ends on is the `on_exit` of some task. -/
theorem exit_loop_target (ts : List jl_task_t) (fuel q cont j0 : Nat) (u0 : jl_task_t)
    (hu0 : ts[j0]? = some u0) (hq : u0.on_exit = q)
    (h : exit_loop ts fuel q = some cont) :
    ∃ (j : Nat) (u : jl_task_t), ts[j]? = some u ∧ u.on_exit = cont := by
  obtain ⟨k, -, hit, -, hall⟩ := (exit_loop_some_iff ts fuel q cont).1 h
  cases k with
  | zero =>
    simp only [on_exit_iter] at hit
    split at hit
    · cases hit; exact ⟨j0, u0, hu0, hq⟩
    · cases hit
  | succ k =>
    obtain ⟨w, tw, h1, h2, -⟩ := hall k (by omega)
    rw [on_exit_iter_add, h1] at hit
    simp only [Option.some_bind, on_exit_iter, h2] at hit
    split at hit
    · cases hit; exact ⟨w, tw, h2, rfl⟩
    · cases hit

/-- In a reachable state the return of the body of a task other than the root
is defined: it finishes the task and resumes a task that is not done. -/
theorem init_task_exit_defined {s : Runtime} (hs : TaskInv s) (res : jl_value_t)
    (hroot : s.jl_current_task ≠ s.jl_root_task) :
    ∃ s' caller v, init_task_exit s res = some (s', .resumes caller v) := by
  obtain ⟨c, hc⟩ : ∃ c, s.tasks[s.jl_current_task]? = some c :=
    ⟨_, List.getElem?_eq_getElem hs.cur_lt⟩
  have hcd := hs.cur_not_done c hc
  have hne0 : s.jl_current_task ≠ 0 := by rw [← hs.root_zero]; exact hroot
  let c1 : jl_task_t := { c with done := true, result := res }
  have hc1 : (s.tasks.set s.jl_current_task c1)[s.jl_current_task]? = some c1 :=
    List.getElem?_set_self hs.cur_lt
  have hoe : ∀ (i : Nat) (t : jl_task_t),
      (s.tasks.set s.jl_current_task c1)[i]? = some t →
      t.on_exit < i ∨ (i = 0 ∧ t.on_exit = 0) := by
    intro i t ht
    rcases getElem?_set_cases _ _ _ _ _ ht with ⟨rfl, -, rfl⟩ | ⟨-, h⟩
    · exact hs.on_exit_lt _ c hc
    · exact hs.on_exit_lt _ _ h
  have hrd : ∀ t : jl_task_t,
      (s.tasks.set s.jl_current_task c1)[0]? = some t → t.done = false := by
    intro t ht
    rw [List.getElem?_set_ne hne0] at ht
    exact hs.root_not_done t ht
  have hlt : c.on_exit < s.jl_current_task := by
    rcases hs.on_exit_lt _ c hc with h | ⟨h, -⟩
    · exact h
    · exact absurd h hne0
  obtain ⟨cont, hcont⟩ := exit_loop_terminates _ hoe hrd s.tasks.length c.on_exit
    (by rw [List.length_set]; have := hs.cur_lt; omega) (by have := hs.cur_lt; omega)
  obtain ⟨ct, hct, hctd⟩ := exit_loop_not_done _ _ _ _ hcont
  have hcc : cont ≠ s.jl_current_task := by
    intro e
    rw [e, hc1] at hct
    cases hct
    cases hctd
  have hct0 : s.tasks[cont]? = some ct := by
    rwa [List.getElem?_set_ne (fun e => hcc e.symm)] at hct
  -- the context of `cont` was saved by a `switchto` that is not the end of a body
  obtain ⟨j, u, hu, hue⟩ := exit_loop_target _ _ _ _ s.jl_current_task c1 hc1 rfl hcont
  have hsw : ct.ctx.switched := by
    obtain ⟨u0, hu0, hue0⟩ : ∃ u0, s.tasks[j]? = some u0 ∧ u0.on_exit = cont := by
      rcases getElem?_set_cases _ _ _ _ _ hu with ⟨rfl, -, rfl⟩ | ⟨-, h⟩
      · exact ⟨c, hc, hue⟩
      · exact ⟨u, h, hue⟩
    rcases hs.exit_ctx j u0 ct hu0 (by rw [hue0]; exact hct0) with h | h
    · rw [hue0] at h; exact absurd h hcc
    · exact h
  have hnt : ¬ ct.ctx.terminal := by
    intro h
    rw [hs.term_done _ ct hct0 h] at hctd
    cases hctd
  obtain ⟨caller, hcaller, hne⟩ : ∃ caller, ct.ctx = .switchto caller ∧ caller ≠ .init_task := by
    rcases hsw with h | ⟨caller, h⟩
    · exact absurd (Or.inl h) hnt
    · refine ⟨caller, h, ?_⟩
      rintro rfl
      exact hnt (Or.inr h)
  have hct2 : ((s.tasks.set s.jl_current_task c1).set s.jl_current_task
      { c1 with ctx := .switchto .init_task })[cont]? = some ct := by
    rw [List.getElem?_set_ne (fun e => hcc e.symm)]; exact hct
  have hfin : finish_task s s.jl_current_task res
      = some { s with tasks := s.tasks.set s.jl_current_task c1 } := by
    simp only [finish_task, hc, hcd, Bool.false_eq_true, if_false, c1]
  simp only [init_task_exit, hfin, hc1, List.length_set, hcont, jl_switchto, switchto, hct, hctd,
    Bool.false_eq_true, if_false, ctx_switch, longjmp, hct2, hcaller, resume]
  cases caller with
  | init_task => exact absurd rfl hne
  | jl_f_yieldto => exact ⟨_, _, _, rfl⟩
  | jl_switchto => exact ⟨_, _, _, rfl⟩

/-- C8: in every reachable state the root task is its own `on_exit`; from
every task `t`, following `on_exit` at most `t` times reaches the root task; no
task but the root comes back to itself by following `on_exit`; when the body of
the current task (not the root) returns, `finish_task` succeeds and the loop
`while (cont->done) cont = cont->on_exit` ends, whatever number of tests at
least the number of tasks it is allowed, on a task `cont` that is not done; and
the whole operation is defined, resumes a suspended `switchto`, and leaves a
current task that is not done. -/
theorem on_exit_chain_reaches_root (m : Machine) (s : Runtime) (hr : Reachable m s) :
    (∃ r, s.tasks[s.jl_root_task]? = some r ∧ r.on_exit = s.jl_root_task) ∧
    (∀ t, t < s.tasks.length →
      ∃ k, k ≤ t ∧ on_exit_iter s.tasks k t = some s.jl_root_task) ∧
    (∀ t k, t ≠ s.jl_root_task → 0 < k → on_exit_iter s.tasks k t ≠ some t) ∧
    (∀ res : jl_value_t, s.jl_current_task ≠ s.jl_root_task →
      ∃ s1 tt cont ct, finish_task s s.jl_current_task res = some s1 ∧
        s1.tasks[s.jl_current_task]? = some tt ∧
        (∀ fuel, s1.tasks.length ≤ fuel →
          exit_loop s1.tasks fuel tt.on_exit = some cont) ∧
        s1.tasks[cont]? = some ct ∧ ct.done = false) ∧
    (∀ res : jl_value_t, s.jl_current_task ≠ s.jl_root_task →
      ∃ s' caller v ct, step m s (.body_returns res) = some (s', .resumes caller v) ∧
        s'.tasks[s'.jl_current_task]? = some ct ∧ ct.done = false) := by
  have hs := hr.inv
  have h0lt : 0 < s.tasks.length := lt_of_le_of_lt (Nat.zero_le _) hs.cur_lt
  obtain ⟨r, hroot⟩ : ∃ r, s.tasks[0]? = some r := ⟨_, List.getElem?_eq_getElem h0lt⟩
  rw [hs.root_zero]
  refine ⟨⟨r, hroot, ?_⟩, on_exit_iter_reaches_root _ hs.on_exit_lt, ?_, ?_, ?_⟩
  · rcases hs.on_exit_lt 0 r hroot with h | ⟨-, h⟩
    · omega
    · exact h
  · intro t k ht hk hit
    have := (on_exit_iter_le _ hs.on_exit_lt k t t hit).2 hk ht
    omega
  · intro res hne
    obtain ⟨c, hc⟩ : ∃ c, s.tasks[s.jl_current_task]? = some c :=
      ⟨_, List.getElem?_eq_getElem hs.cur_lt⟩
    have hcd := hs.cur_not_done c hc
    let c1 : jl_task_t := { c with done := true, result := res }
    refine ⟨{ s with tasks := s.tasks.set s.jl_current_task c1 }, c1, ?_⟩
    have hfin : finish_task s s.jl_current_task res
        = some { s with tasks := s.tasks.set s.jl_current_task c1 } := by
      simp only [finish_task, hc, hcd, Bool.false_eq_true, if_false, c1]
    simp only [List.length_set]
    have hoe : ∀ (i : Nat) (t : jl_task_t),
        (s.tasks.set s.jl_current_task { c with done := true, result := res })[i]? = some t →
        t.on_exit < i ∨ (i = 0 ∧ t.on_exit = 0) := by
      intro i t ht
      rcases getElem?_set_cases _ _ _ _ _ ht with ⟨rfl, -, rfl⟩ | ⟨-, h⟩
      · exact hs.on_exit_lt _ c hc
      · exact hs.on_exit_lt _ _ h
    have hrd : ∀ t : jl_task_t,
        (s.tasks.set s.jl_current_task { c with done := true, result := res })[0]? = some t →
        t.done = false := by
      intro t ht
      rw [List.getElem?_set_ne hne] at ht
      exact hs.root_not_done t ht
    have hlt : c.on_exit < s.jl_current_task := by
      rcases hs.on_exit_lt _ c hc with h | ⟨h, -⟩
      · exact h
      · exact absurd h hne
    have hterm := exit_loop_terminates _ hoe hrd
    simp only [List.length_set] at hterm
    obtain ⟨cont, hcont⟩ := hterm s.tasks.length c.on_exit (by have := hs.cur_lt; omega)
      (by have := hs.cur_lt; omega)
    obtain ⟨ct, hct, hctd⟩ := exit_loop_not_done _ _ _ _ hcont
    refine ⟨cont, ct, hfin, List.getElem?_set_self hs.cur_lt, ?_, hct, hctd⟩
    intro fuel hfuel
    exact exit_loop_mono _ _ _ _ hcont fuel hfuel
  · intro res hne
    rw [← hs.root_zero] at hne
    obtain ⟨s', caller, v, hexit⟩ := init_task_exit_defined hs res hne
    have hstep : step m s (.body_returns res) = some (s', .resumes caller v) := by
      simp only [step, if_neg hne, hexit]
    have hs' := (Reachable.step _ hr hstep).inv
    obtain ⟨ct, hct⟩ : ∃ ct, s'.tasks[s'.jl_current_task]? = some ct :=
      ⟨_, List.getElem?_eq_getElem hs'.cur_lt⟩
    exact ⟨s', caller, v, ct, hstep, hct, hs'.cur_not_done ct hct⟩

theorem jl_raise_event {s s' : Runtime} {e : jl_value_t} {ev : Event}
    (h : jl_raise s e = some (s', ev)) : ∃ hc, ev = .handler hc := by
  obtain ⟨c, eht, -, -, -, -, -, -, hcase⟩ := jl_raise_core h
  rcases hcase with ⟨-, -, -, hc, -, h1⟩ | ⟨-, -, -, -, -, hc, -, -, h1⟩
  · exact ⟨hc, h1⟩
  · exact ⟨hc, h1⟩

theorem jl_new_task_inherits {m : Machine} {host : Host} {s s' : Runtime}
    {start : jl_value_t} {ssize B : Nat} {c : jl_task_t}
    (hc : s.tasks[s.jl_current_task]? = some c)
    (h : jl_new_task m host s start ssize = some (s', .returns (.task B))) :
    B = s.tasks.length ∧ s'.jl_current_task = s.jl_current_task ∧
      s'.jl_root_task = s.jl_root_task ∧
      ∃ b, s'.tasks = s.tasks ++ [b] ∧ s'.tasks[B]? = some b ∧
        b.state.eh_task = c.state.eh_task ∧
        b.state.eh_ctx = none ∧ b.on_exit = s.jl_current_task ∧ b.done = false ∧
        b.ctx = .init_task ∧ b.start = start := by
  simp only [jl_new_task, hc] at h
  split at h
  · obtain ⟨hh, hev⟩ := jl_raise_event h
    cases hev
  · split at h
    · cases h
    · rename_i obj hobj
      obtain ⟨rfl, -⟩ := init_task_some hobj
      cases h
      refine ⟨rfl, rfl, rfl, _, rfl, ?_, rfl, rfl, rfl, rfl, rfl, rfl⟩
      simp

theorem HandlerKept.same (ts : List jl_task_t) : HandlerKept ts ts :=
  fun _ t ht => ⟨t, ht, rfl, rfl⟩

theorem HandlerKept.of_tasks_eq {ts ts' : List jl_task_t} (h : ts' = ts) : HandlerKept ts ts' :=
  h ▸ HandlerKept.same ts

theorem HandlerKept.chain {a b c : List jl_task_t} (h1 : HandlerKept a b)
    (h2 : HandlerKept b c) : HandlerKept a c := by
  intro i t ht
  obtain ⟨t1, h11, h12, h13⟩ := h1 i t ht
  obtain ⟨t2, h21, h22, h23⟩ := h2 i t1 h11
  exact ⟨t2, h21, h22.trans h12, h23.trans h13⟩

theorem HandlerKept.set_task {ts : List jl_task_t} {i : Nat} {x : jl_task_t} (x' : jl_task_t)
    (hx : ts[i]? = some x)
    (h : x'.state.eh_task = x.state.eh_task ∧ x'.state.eh_ctx = x.state.eh_ctx) :
    HandlerKept ts (ts.set i x') := by
  intro j t ht
  by_cases hi : j = i
  · subst hi
    rw [hx] at ht; cases ht
    exact ⟨x', List.getElem?_set_self (lt_length_of_getElem? hx), h⟩
  · exact ⟨t, by rw [List.getElem?_set_ne (fun e => hi e.symm)]; exact ht, rfl, rfl⟩

theorem HandlerKept.append_task (ts : List jl_task_t) (obj : jl_task_t) :
    HandlerKept ts (ts ++ [obj]) := by
  intro i t ht
  exact ⟨t, by rw [List.getElem?_append_left (lt_length_of_getElem? ht)]; exact ht, rfl, rfl⟩

theorem switchto_handler_kept {s s' : Runtime} {t : Nat} {caller : Caller} {ev : Event}
    (h : switchto s t caller = some (s', ev)) : HandlerKept s.tasks s'.tasks := by
  obtain ⟨tt, -, hcase⟩ := switchto_core h
  rcases hcase with ⟨-, h1, -⟩ | ⟨-, cur, hcur, h1, -⟩
  · exact HandlerKept.of_tasks_eq h1
  · rw [h1]
    exact HandlerKept.set_task _ hcur ⟨rfl, rfl⟩

theorem jl_raise_handler_kept {s s' : Runtime} {e : jl_value_t} {ev : Event}
    (h : jl_raise s e = some (s', ev)) : HandlerKept s.tasks s'.tasks := by
  obtain ⟨c, eht, hc, heht, -, -, -, -, hcase⟩ := jl_raise_core h
  have h1 : HandlerKept s.tasks (s.tasks.set c.state.eh_task
      { eht with state := { eht.state with err := true } }) :=
    HandlerKept.set_task _ heht ⟨rfl, rfl⟩
  rcases hcase with ⟨-, ht, -⟩ | ⟨hne, hcd, ht, -⟩
  · rw [ht]; exact h1
  · rw [ht]
    refine h1.chain (HandlerKept.set_task (x := c) _ ?_ ⟨rfl, rfl⟩)
    rw [List.getElem?_set_ne (fun e => hne e.symm)]; exact hc

theorem init_task_exit_handler_kept {s s' : Runtime} {res : jl_value_t} {ev : Event}
    (h : init_task_exit s res = some (s', ev)) : HandlerKept s.tasks s'.tasks := by
  obtain ⟨c, cont, ct, hc, hcd, -, -, -, ht, -⟩ := init_task_exit_core h
  rw [ht]
  exact HandlerKept.set_task _ hc ⟨rfl, rfl⟩

theorem jl_new_task_handler_kept {m : Machine} {host : Host} {s s' : Runtime}
    {start : jl_value_t} {ssize : Nat} {ev : Event}
    (h : jl_new_task m host s start ssize = some (s', ev)) :
    HandlerKept s.tasks s'.tasks := by
  obtain ⟨c, obj, -, -, -, -, -, -, hcase⟩ := jl_new_task_core h
  rcases hcase with ⟨rfl, -⟩ | ⟨msg, herr⟩
  · exact HandlerKept.append_task _ _
  · exact (HandlerKept.append_task _ obj).chain (jl_raise_handler_kept herr)

/-- An operation other than the installation of a handler leaves the handler
task and the handler context of every task as they are. -/
theorem step_handler_kept {m : Machine} {s s' : Runtime} {op : Op} {ev : Event}
    (hop : ∀ hb, op ≠ .enter_handler hb)
    (h : step m s op = some (s', ev)) : HandlerKept s.tasks s'.tasks := by
  cases op with
  | Task host args =>
    simp only [step] at h
    unfold jl_f_task at h
    split at h
    · exact jl_raise_handler_kept h
    · exact jl_new_task_handler_kept h
    · simp only at h
      split at h
      · exact jl_raise_handler_kept h
      · exact jl_new_task_handler_kept h
    · exact jl_raise_handler_kept h
    · exact jl_raise_handler_kept h
    · exact jl_raise_handler_kept h
    · exact jl_raise_handler_kept h
  | new_task host start ssize => exact jl_new_task_handler_kept h
  | yieldto args =>
    simp only [step] at h
    unfold jl_f_yieldto at h
    split at h
    · exact jl_raise_handler_kept h
    · simp only at h
      split at h <;> exact (switchto_handler_kept h : HandlerKept _ s'.tasks)
    · exact jl_raise_handler_kept h
  | switchto t arg => exact (switchto_handler_kept h : HandlerKept _ s'.tasks)
  | raise e => exact jl_raise_handler_kept h
  | body_returns res =>
    simp only [step] at h
    split at h
    · cases h
    · exact init_task_exit_handler_kept h
  | current_task args =>
    simp only [step, jl_f_current_task] at h
    split at h
    · cases h; exact HandlerKept.same _
    · exact jl_raise_handler_kept h
  | task_done args =>
    simp only [step, jl_f_taskdone] at h
    split at h
    · exact jl_raise_handler_kept h
    · split at h
      · cases h
      · cases h; exact HandlerKept.same _
    · exact jl_raise_handler_kept h
    · exact jl_raise_handler_kept h
  | enter_handler hb => exact absurd rfl (hop hb)

/-- An operation that is not the installation of a handler by task `B` leaves
the handler task and the handler context of `B` as they are. -/
theorem step_handler_kept_at {m : Machine} {s s' : Runtime} {op : Op} {ev : Event} {B : Nat}
    (hop : installs_handler op = false ∨ s.jl_current_task ≠ B)
    (h : step m s op = some (s', ev)) (b : jl_task_t) (hb : s.tasks[B]? = some b) :
    ∃ b', s'.tasks[B]? = some b' ∧ b'.state.eh_task = b.state.eh_task ∧
      b'.state.eh_ctx = b.state.eh_ctx := by
  by_cases hi : installs_handler op = false
  · refine step_handler_kept (fun hh e => ?_) h B b hb
    subst e
    cases hi
  · have hne : s.jl_current_task ≠ B := by
      rcases hop with h' | h'
      · exact absurd h' hi
      · exact h'
    cases op with
    | enter_handler hh =>
      simp only [step, enter_handler] at h
      split at h
      · cases h
      · cases h
        exact ⟨b, by simp only [List.getElem?_set_ne hne]; exact hb, rfl, rfl⟩
    | _ => exact absurd rfl hi

theorem run_handler_kept_at {m : Machine} {B : Nat} :
    ∀ (ops : List Op) {s s' : Runtime}, no_install_by m B s ops = true →
      run m s ops = some s' → ∀ b : jl_task_t, s.tasks[B]? = some b →
        ∃ b', s'.tasks[B]? = some b' ∧ b'.state.eh_task = b.state.eh_task ∧
          b'.state.eh_ctx = b.state.eh_ctx := by
  intro ops
  induction ops with
  | nil =>
    intro s s' _ h b hb
    simp only [run] at h
    cases h
    exact ⟨b, hb, rfl, rfl⟩
  | cons op ops ih =>
    intro s s' hno h b hb
    simp only [run] at h
    simp only [no_install_by, Bool.and_eq_true, Bool.or_eq_true, Bool.not_eq_true',
      bne_iff_ne, ne_eq] at hno
    split at h
    · cases h
    · rename_i s1 ev hstep
      rw [hstep] at hno
      obtain ⟨b1, hb1, h1, h2⟩ := step_handler_kept_at hno.1 hstep b hb
      obtain ⟨b2, hb2, h3, h4⟩ := ih hno.2 h b1 hb1
      exact ⟨b2, hb2, h3.trans h1, h4.trans h2⟩

/-- C4: a task made by `jl_new_task` has the `eh_task` of its creator and a
null `eh_ctx`. When the current task `A` has created `B`, `yieldto(B, extra...)`
starts the body of `B` with `B` current. And in every reachable state in which
`A` is current and is its own handler task and creates `B`: after every run of
operations in which `B` installs no handler, when `B` is current and `A` is not
done and has the handler context `hc`, `jl_raise(e)` in `B` lands on `hc` with
`A` current, `e` in `jl_exception_in_transit`, and `B` done with result `e`. -/
theorem handler_locality (m : Machine) (host : Host) (start : jl_value_t) (ssize : Nat) :
    (∀ (s s' : Runtime) (c : jl_task_t) (B : Nat),
      s.tasks[s.jl_current_task]? = some c →
      jl_new_task m host s start ssize = some (s', .returns (.task B)) →
      ∃ b, s'.tasks[B]? = some b ∧ b.state.eh_task = c.state.eh_task ∧
        b.state.eh_ctx = none) ∧
    (∀ (s s1 : Runtime) (A B : Nat) (a : jl_task_t) (extra : List jl_value_t),
      s.jl_current_task = A → s.tasks[A]? = some a →
      jl_new_task m host s start ssize = some (s1, .returns (.task B)) →
      ∃ s2, jl_f_yieldto s1 (.task B :: extra) = some (s2, .starts start extra) ∧
        s2.jl_current_task = B) ∧
    (∀ (s s1 : Runtime) (A B hc : Nat) (a : jl_task_t) (e : jl_value_t),
      Reachable m s →
      s.jl_current_task = A → s.tasks[A]? = some a → a.state.eh_task = A →
      jl_new_task m host s start ssize = some (s1, .returns (.task B)) →
      ∀ (ops : List Op) (s2 : Runtime) (a2 : jl_task_t),
        run m s1 ops = some s2 → no_install_by m B s1 ops = true →
        s2.jl_current_task = B →
        s2.tasks[A]? = some a2 → a2.done = false → a2.state.eh_ctx = some hc →
        ∃ s3, jl_raise s2 e = some (s3, .handler hc) ∧
          s3.jl_current_task = A ∧ s3.jl_exception_in_transit = e ∧
          ∃ b', s3.tasks[B]? = some b' ∧ b'.done = true ∧ b'.result = e) := by
  refine ⟨?_, ?_, ?_⟩
  · intro s s' c B hc h
    obtain ⟨-, -, -, b, -, hb, h1, h2, -⟩ := jl_new_task_inherits hc h
    exact ⟨b, hb, h1, h2⟩
  · intro s s1 A B a extra hcur hA hnew
    subst hcur
    have hlt := lt_length_of_getElem? hA
    obtain ⟨hB, hc1, hr1, b, ht1, hb, -, -, -, hbd, hbc, hbs⟩ := jl_new_task_inherits hA hnew
    subst hB
    have hA1 : s1.tasks[s1.jl_current_task]? = some a := by
      rw [hc1, ht1, List.getElem?_append_left hlt]; exact hA
    have hneAB : s.jl_current_task ≠ s.tasks.length := by omega
    have hB' : (s1.tasks.set s.jl_current_task
        { a with ctx := .switchto .jl_f_yieldto })[s.tasks.length]? = some b := by
      rw [List.getElem?_set_ne hneAB]; exact hb
    rw [jl_f_yieldto_task]
    simp only [switchto, hb, hbd, ctx_switch, hA1, longjmp, Bool.false_eq_true, if_false]
    rw [hc1]
    simp only [hB', hbc, resume, hbs]
    refine ⟨{ tasks := s1.tasks.set s.jl_current_task { a with ctx := .switchto .jl_f_yieldto }
              jl_current_task := s.tasks.length
              jl_root_task := s1.jl_root_task
              task_arg_in_transit := transit_value extra
              n_args_in_transit := extra.length
              jl_exception_in_transit := s1.jl_exception_in_transit }, ?_, rfl⟩
    rcases extra with _ | ⟨x, _ | ⟨y, r⟩⟩ <;> simp [transit_value]
  · intro s s1 A B hc a e hr hcur hA heh hnew ops s2 a2 hrun hno hcur2 ha2 ha2d ha2ctx
    subst hcur
    have hlt := lt_length_of_getElem? hA
    obtain ⟨hB, -, -, b, ht1, hb, hbeh, -⟩ := jl_new_task_inherits hA hnew
    subst hB
    rw [heh] at hbeh
    have hr1 : Reachable m s1 :=
      Reachable.step (.new_task host start ssize) hr (by simpa [step] using hnew)
    have hr2 : Reachable m s2 := run_reachable ops hr1 hrun
    obtain ⟨b2, hb2, hb2eh, -⟩ := run_handler_kept_at ops hno hrun b hb
    rw [hbeh] at hb2eh
    have hneAB : s.tasks.length ≠ s.jl_current_task := by omega
    have hb2d : b2.done = false := hr2.inv.cur_not_done b2 (by rw [hcur2]; exact hb2)
    obtain ⟨s3, h31, h32, h33, -, ⟨b', h34, h35, h36⟩, -⟩ :=
      (jl_raise_spec s2 e b2 a2 (by rw [hcur2]; exact hb2) (by rw [hb2eh]; exact ha2)).2
        (by rw [hcur2, hb2eh]; exact hneAB) hb2d s.jl_current_task a2 hc
        (by simp [ha2d, ha2ctx, hb2eh]) ha2 ha2ctx
    rw [hcur2] at h34
    exact ⟨s3, h31, h32, h33, b', h34, h35, h36⟩

/-! ### The check of the stack size in `Task` -/

/-- Sizes from 0 up to `JL_MIN_STACK - 1` are rejected by `Task`. -/
theorem jl_f_task_rejects_small (m : Machine) (host : Host) (s : Runtime) (f : Nat) (n : Int)
    (h0 : 0 ≤ n) (h1 : n < JL_MIN_STACK m) (hfit : JL_MIN_STACK m ≤ 2 ^ m.bits) :
    jl_f_task m host s [.function f, .int32 n] = jl_error s "Task: stack size too small" := by
  have hn : (n % 2 ^ m.bits).toNat < JL_MIN_STACK m := by
    have h2 : n < (2 : Int) ^ m.bits := by
      have : ((JL_MIN_STACK m : Nat) : Int) ≤ ((2 ^ m.bits : Nat) : Int) := by exact_mod_cast hfit
      push_cast at this
      omega
    rw [Int.emod_eq_of_lt h0 h2]
    omega
  simp only [jl_f_task, hn, if_true]

/-- Sizes from `JL_MIN_STACK` on that are `int32` values pass the check of `Task`. -/
theorem jl_f_task_accepts_large (m : Machine) (host : Host) (s : Runtime) (f : Nat) (n : Int)
    (h1 : (JL_MIN_STACK m : Int) ≤ n) (h2 : n < 2 ^ 31) (hbits : 31 ≤ m.bits) :
    jl_f_task m host s [.function f, .int32 n] = jl_new_task m host s (.function f) n.toNat := by
  have hpow : (2 : Int) ^ 31 ≤ 2 ^ m.bits := pow_le_pow_right₀ (by norm_num) hbits
  have h0 : 0 ≤ n := le_trans (Int.ofNat_nonneg _) h1
  have hn : ¬ (n % 2 ^ m.bits).toNat < JL_MIN_STACK m := by
    rw [Int.emod_eq_of_lt h0 (lt_of_lt_of_le h2 hpow)]
    omega
  simp only [jl_f_task, hn, if_false]
  rw [Int.emod_eq_of_lt h0 (lt_of_lt_of_le h2 hpow)]

/-- Every negative `int32` passes the check of `Task`: converted to `size_t`
it is at least `2^bits - 2^31`. -/
theorem jl_f_task_accepts_negative (m : Machine) (host : Host) (s : Runtime) (f : Nat)
    (n : Int) (hneg : n < 0) (hlo : -(2 ^ 31) ≤ n) (hbits : 32 ≤ m.bits)
    (hmin : JL_MIN_STACK m ≤ 2 ^ 31) :
    jl_f_task m host s [.function f, .int32 n]
      = jl_new_task m host s (.function f) (n + 2 ^ m.bits).toNat := by
  have hpow : (2 : Int) ^ 32 ≤ 2 ^ m.bits := pow_le_pow_right₀ (by norm_num) hbits
  have hmod : n % 2 ^ m.bits = n + 2 ^ m.bits := by
    rw [← Int.add_emod_self]
    exact Int.emod_eq_of_lt (by omega) (by omega)
  have hmin' : ((JL_MIN_STACK m : Nat) : Int) ≤ 2 ^ 31 := by exact_mod_cast hmin
  have hn : ¬ (n % 2 ^ m.bits).toNat < JL_MIN_STACK m := by
    rw [hmod]
    omega
  simp only [jl_f_task, hn, if_false]
  rw [hmod]

/-- C5: the failing input `Task(f, -5000)` on the 64-bit example target, in a
state where the root task has a handler installed. `-5000` is below
`JL_MIN_STACK` and the error "Task: stack size too small" could be raised
there (it would land on the handler without making a task); but the size
converted to `size_t` is `2^64 - 5000`, the check passes, `jl_new_task` is
called with it and returns a new task, of stack size `2^64 - 4096`, and nothing
is raised. At `Task(f, -1)` the check passes as well and the call faults in the
frame copy of `init_task` instead of raising the error. -/
theorem jl_f_task_negative_size_accepted :
    ((-5000 : Int) < (JL_MIN_STACK example_machine : Int)) ∧
    (∃ s', jl_error (example_run [.enter_handler 7]) "Task: stack size too small"
        = some (s', .handler 7) ∧ s'.tasks.length = 1) ∧
    jl_f_task example_machine example_host (example_run [.enter_handler 7])
        [.function 1, .int32 (-5000)]
      = jl_new_task example_machine example_host (example_run [.enter_handler 7])
          (.function 1) (2 ^ 64 - 5000) ∧
    (∃ s' t, jl_f_task example_machine example_host (example_run [.enter_handler 7])
        [.function 1, .int32 (-5000)] = some (s', .returns (.task 1)) ∧
      s'.tasks.length = 2 ∧ s'.tasks[1]? = some t ∧ t.ssize = 2 ^ 64 - 4096 ∧
      t.done = false ∧ s'.jl_exception_in_transit = .jl_null) ∧
    jl_f_task example_machine example_host (example_run [.enter_handler 7])
        [.function 1, .int32 (-1)] = none := by
  refine ⟨by decide, ⟨_, rfl, rfl⟩, ?_, ⟨_, _, rfl, rfl, rfl, rfl, rfl, rfl⟩, rfl⟩
  exact jl_f_task_accepts_negative example_machine example_host _ 1 (-5000) (by decide)
    (by decide) (by decide) (by decide)

/-! ### The example runs -/

/-- The state after a defined run from `example_init` is reachable. -/
theorem example_reachable (ops : List Op)
    (h : (run example_machine example_init ops).isSome = true) :
    Reachable example_machine (example_run ops) := by
  unfold example_run
  cases hr : run example_machine example_init ops with
  | none => rw [hr] at h; cases h
  | some s' =>
    exact run_reachable ops (Reachable.init 0 8388608) hr

/-- Ping-pong: `P` transfers 1 to the root task, suspended in its `yieldto`,
and later 11; the root task's `yieldto` returns 1, then 11. -/
theorem yieldto_delivers_arguments_witness :
    (Reachable example_machine (example_run pingpong_1) ∧
      (example_run pingpong_1).tasks[0]? = some (example_task pingpong_1 0) ∧
      (example_task pingpong_1 0).ctx = .switchto .jl_f_yieldto ∧
      0 ≠ (example_run pingpong_1).jl_current_task) ∧
    (∃ s', jl_f_yieldto (example_run pingpong_1) [.task 0, .int32 1]
        = some (s', .resumes .jl_f_yieldto (.int32 1)) ∧
      s'.n_args_in_transit = 1 ∧ s'.jl_current_task = 0 ∧
      s'.task_arg_in_transit = .jl_null) ∧
    (∃ s', jl_f_yieldto (example_run pingpong_2) [.task 0, .int32 11]
        = some (s', .resumes .jl_f_yieldto (.int32 11)) ∧
      s'.n_args_in_transit = 1 ∧ s'.jl_current_task = 0 ∧
      s'.task_arg_in_transit = .jl_null) :=
  ⟨⟨example_reachable _ rfl, rfl, rfl, by decide⟩,
    yieldto_delivers_arguments example_machine (example_run pingpong_1)
      (example_reachable _ rfl) 0 (example_task pingpong_1 0) [.int32 1] rfl rfl (by decide),
    yieldto_delivers_arguments example_machine (example_run pingpong_2)
      (example_reachable _ rfl) 0 (example_task pingpong_2 0) [.int32 11] rfl rfl (by decide)⟩


/-- A transfer with two arguments to the task that returned 42 gives 42 back
without a switch. -/
theorem yieldto_done_returns_result_witness :
    ((example_run done_task_run).tasks[1]? = some (example_task done_task_run 1) ∧
      (example_task done_task_run 1).done = true) ∧
    ∃ s', jl_f_yieldto (example_run done_task_run) [.task 1, .int32 5, .int32 6]
        = some (s', .returns (.int32 42)) ∧
      s'.jl_current_task = 0 ∧ s'.tasks = (example_run done_task_run).tasks ∧
      s'.tasks[1]? = some (example_task done_task_run 1) ∧ s'.jl_root_task = 0 ∧
      s'.task_arg_in_transit = .jl_null :=
  ⟨⟨rfl, rfl⟩,
    yieldto_done_returns_result (example_run done_task_run) 1 (example_task done_task_run 1)
      [.int32 5, .int32 6] rfl rfl⟩

/-- The raise of `Q` in `raise_run` lands on the handler 7 of the root task. -/
theorem jl_raise_reaches_handler_witness :
    ((example_run raise_run).tasks[(example_run raise_run).jl_current_task]?
        = some (example_task raise_run 2) ∧
      (example_run raise_run).tasks[(example_task raise_run 2).state.eh_task]?
        = some (example_task raise_run 0)) ∧
    ∃ s', jl_raise (example_run raise_run) (.other 9) = some (s', .handler 7) ∧
      s'.jl_current_task = 0 ∧ s'.jl_exception_in_transit = .other 9 ∧
      (∃ h', s'.tasks[0]? = some h' ∧ h'.state.err = true) ∧
      (∃ c', s'.tasks[2]? = some c' ∧ c'.done = true ∧ c'.result = .other 9) := by
  refine ⟨⟨rfl, rfl⟩, ?_⟩
  obtain ⟨s', h1, h2, h3, h4, h5, -⟩ :=
    (jl_raise_reaches_handler (example_run raise_run) (.other 9) (example_task raise_run 2)
      (example_task raise_run 0) rfl rfl).2 (by decide) rfl 0 (example_task raise_run 0) 7
      rfl rfl rfl
  exact ⟨s', h1, h2, h3, h4, h5⟩

/-- Task `P` (not the root) installs handler 7 and creates `Q`; `Q` is started,
creates and runs `R`, which installs a handler of its own, and is resumed; the
raise in `Q` lands on handler 7 in `P`. -/
theorem handler_locality_witness :
    (Reachable example_machine (example_run locality_before) ∧
      (example_run locality_before).jl_current_task = 1 ∧
      (example_task locality_before 1).state.eh_task = 1 ∧
      jl_new_task example_machine example_host (example_run locality_before) (.function 2) 5000
        = some (example_run locality_create, .returns (.task 2)) ∧
      run example_machine (example_run locality_create) locality_after
        = some (example_run (locality_create ++ locality_after)) ∧
      no_install_by example_machine 2 (example_run locality_create) locality_after = true) ∧
    ∃ s3, jl_raise (example_run (locality_create ++ locality_after)) (.other 9)
        = some (s3, .handler 7) ∧
      s3.jl_current_task = 1 ∧ s3.jl_exception_in_transit = .other 9 ∧
      ∃ b', s3.tasks[2]? = some b' ∧ b'.done = true ∧ b'.result = .other 9 :=
  ⟨⟨example_reachable _ rfl, rfl, rfl, rfl, rfl, rfl⟩,
    (handler_locality example_machine example_host (.function 2) 5000).2.2
      (example_run locality_before) (example_run locality_create) 1 2 7
      (example_task locality_before 1) (.other 9) (example_reachable _ rfl) rfl rfl rfl rfl
      locality_after (example_run (locality_create ++ locality_after))
      (example_task (locality_create ++ locality_after) 1) rfl rfl rfl rfl rfl rfl⟩

/-- The task that returned 42 is still done with result 42 after
`after_done_ops`, and not current. -/
theorem done_is_monotonic_and_terminal_witness :
    (Reachable example_machine (example_run done_task_run) ∧
      (example_run done_task_run).tasks[1]? = some (example_task done_task_run 1) ∧
      (example_task done_task_run 1).done = true) ∧
    ∃ tt', (example_run (done_task_run ++ after_done_ops)).tasks[1]? = some tt' ∧
      tt'.done = true ∧ tt'.result = .int32 42 ∧
      (example_run (done_task_run ++ after_done_ops)).jl_current_task ≠ 1 := by
  refine ⟨⟨example_reachable _ rfl, rfl, rfl⟩, ?_⟩
  obtain ⟨tt', h1, h2, h3, h4, -⟩ :=
    (done_is_monotonic_and_terminal example_machine (example_run done_task_run)
      (example_reachable _ rfl) 1 (example_task done_task_run 1) rfl rfl).2
      after_done_ops (example_run (done_task_run ++ after_done_ops)) rfl
  exact ⟨tt', h1, h2, h3, h4⟩

/-- The root task is not done after `done_task_run`. -/
theorem root_task_never_finishes_witness :
    Reachable example_machine (example_run done_task_run) ∧
    ∃ r, (example_run done_task_run).tasks[(example_run done_task_run).jl_root_task]? = some r ∧
      r.done = false :=
  ⟨example_reachable _ rfl,
    root_task_never_finishes example_machine (example_run done_task_run)
      (example_reachable _ rfl)⟩

/-- From `Q` in `raise_run` the root task is at most two `on_exit` links away. -/
theorem on_exit_chain_reaches_root_witness :
    Reachable example_machine (example_run raise_run) ∧
    ∃ k, k ≤ 2 ∧ on_exit_iter (example_run raise_run).tasks k 2 = some 0 :=
  ⟨example_reachable _ rfl,
    (on_exit_chain_reaches_root example_machine (example_run raise_run)
      (example_reachable _ rfl)).2.1 2 (by decide)⟩

/-- The layout of a stack of 5000 requested bytes on the example target: the
stored size is 8192, the allocation is at 100000, the guard page at 102400 and
the usable stack at 106496. A request of 0 bytes faults in the frame copy. -/
theorem jl_new_task_stack_layout_witness :
    ((4096 : Nat) = 2 ^ 12 ∧
      example_init.tasks[example_init.jl_current_task]? = some (example_task [] 0) ∧
      4096 ∣ 8192 ∧ 5000 ≤ 8192 ∧ (∀ n, 4096 ∣ n → 5000 ≤ n → 8192 ≤ n) ∧
      100000 + (8192 + 2 * 4096 - 1) < 2 ^ 64) ∧
    (∃ s' t,
      jl_new_task example_machine example_host example_init (.function 1) 5000
        = some (s', .returns (.task 1)) ∧
      s'.tasks[1]? = some t ∧ t.ssize = 8192 ∧ t._stkbase = 100000 ∧ t.stack = 106496) ∧
    jl_new_task example_machine example_host example_init (.function 1) 0 = none := by
  have hleast : ∀ n, 4096 ∣ n → 5000 ≤ n → 8192 ≤ n := by
    rintro n ⟨c, rfl⟩ h
    omega
  refine ⟨⟨by norm_num, rfl, by decide, by decide, hleast, by norm_num⟩, ?_, ?_⟩
  · obtain ⟨t, raw, base, -, h3, -, h5, h6, h7, h8, h9, h10, -, -, -, hret, -⟩ :=
      jl_new_task_stack_layout example_machine example_host example_init (example_task [] 0)
        (.function 1) 5000 12 8192 (by norm_num [example_machine]) rfl (by decide) (by decide)
        hleast (by decide) (by decide)
    obtain ⟨-, -, s', h1, h2⟩ := hret (by decide)
    have hraw : raw = 100000 := h5
    have hbase : base = 102400 := by
      obtain ⟨c, rfl⟩ := h7
      have e : example_machine.jl_page_size = 4096 := rfl
      rw [e] at h8 h9 ⊢
      omega
    refine ⟨s', _, h1, h2, h3, by rw [← hraw]; exact h6, ?_⟩
    show t.stack = 106496
    rw [h10, hbase]
    rfl
  · obtain ⟨t, raw, base, -, h3, -, -, -, -, -, -, h10, -, -, -, -, hfault⟩ :=
      jl_new_task_stack_layout example_machine example_host example_init (example_task [] 0)
        (.function 1) 0 12 0 (by norm_num [example_machine]) rfl (by decide) (by decide)
        (fun n _ _ => Nat.zero_le n) (by decide) (by decide)
    exact hfault (by decide) (by rw [h10]; show 256 ≤ base + 4096 + 0; omega) (by decide)

end JlTask
